import Mathlib

/-!
Verification of the all-isbns pipeline: shallow embedding of the core
functions (record codec, book aggregator, ISBN filter, year extractor,
coordinate maps, packed-runs decoder, result writer) and proofs of the
spec's testable properties against them.

Conventions: bytes are `Nat` values built to lie in `[0, 256)`; ISBN
strings are `List Char`; Python sets are `Finset`; fallible paths return
`Option`; the decoder returns the records it yielded together with an
error flag (mirroring a generator that may raise after yielding).
-/

/-!
# Definitions
-/

/-! ## ISBN position → block pixel (`common.get_isbn_code_pos`) -/

/-- Loop body of `get_isbn_code_pos`: while `code > 0`, digit `i`
(least-significant first) contributes `digit * 10^(i/2)` to `x` when `i`
is even and to `y` when `i` is odd. -/
def getIsbnCodePosAux (code i x y : Nat) : Nat × Nat :=
  if _h : 0 < code then
    getIsbnCodePosAux (code / 10) (i + 1)
      (if i % 2 = 0 then x + (code % 10) * 10 ^ (i / 2) else x)
      (if i % 2 = 0 then y else y + (code % 10) * 10 ^ (i / 2))
  else (x, y)
termination_by code
decreasing_by exact Nat.div_lt_self _h (by norm_num)

/-- `common.get_isbn_code_pos`: interleaved base-10 coordinates of a
block-local ISBN position. -/
def get_isbn_code_pos (code : Nat) : Nat × Nat :=
  getIsbnCodePosAux code 0 0 0

/-- Number assembled from the even-indexed decimal digits of `c`
(least-significant first). -/
def evenDigits (c : Nat) : Nat :=
  if _h : c = 0 then 0 else c % 10 + 10 * evenDigits (c / 100)
termination_by c
decreasing_by exact Nat.div_lt_self (Nat.pos_of_ne_zero _h) (by norm_num)

/-- Number assembled from the odd-indexed decimal digits of `c`. -/
def oddDigits (c : Nat) : Nat := evenDigits (c / 10)

/-- Interleave `x` (even digit slots) and `y` (odd digit slots) back into a
single number: the inverse of the digit split. -/
def interleaveDigits (x y : Nat) : Nat :=
  if _h : x = 0 ∧ y = 0 then 0
  else x % 10 + 10 * (y % 10) + 100 * interleaveDigits (x / 10) (y / 10)
termination_by x + y
decreasing_by
  have _hx := Nat.div_le_self x 10
  have hy := Nat.div_le_self y 10
  rcases Nat.eq_zero_or_pos x with hx0 | hx0
  · have hy0 : 0 < y := by omega
    have := Nat.div_lt_self hy0 (show 1 < 10 by norm_num)
    omega
  · have := Nat.div_lt_self hx0 (show 1 < 10 by norm_num)
    omega

/-! ## Packed ISBN runs decoder (`common.ISBNsBinaryProcessor.process`) -/

/-- `struct.unpack('<nI', …)`: group bytes four at a time, little-endian. -/
def u32sOfBytes : List Nat → List Nat
  | b0 :: b1 :: b2 :: b3 :: rest =>
      (b0 + 256 * (b1 + 256 * (b2 + 256 * b3))) :: u32sOfBytes rest
  | _ => []

/-- Inner loop of the `isbn_streak` branch: add `v` consecutive present
positions to the current block, yielding and resetting the block whenever
`position - offset` reaches `N = 10^8`. Returns the yields and the final
`(position, offset, block)`. -/
def streakLoop {B : Type} (create : B) (add : B → Nat → Nat → B) :
    Nat → Nat → Nat → B → List (Nat × B) × Nat × Nat × B
  | 0, pos, off, blk => ([], pos, off, blk)
  | v + 1, pos, off, blk =>
      let p := get_isbn_code_pos (pos - off)
      let blk1 := add blk p.1 p.2
      let pos1 := pos + 1
      if 100000000 ≤ pos1 - off then
        let r := streakLoop create add v pos1 (pos1 / 100000000 * 100000000)
          create
        (((pos1 - 1) / 100000000, blk1) :: r.1, r.2)
      else
        streakLoop create add v pos1 off blk1

/-- Main loop of `ISBNsBinaryProcessor.process` over the unpacked 32-bit
values, alternating between `isbn_streak` and `gap_size` readings, with a
final unconditional yield at stream end. -/
def processRunsAux {B : Type} (create : B) (add : B → Nat → Nat → B) :
    Bool → List Nat → Nat → Nat → B → List (Nat × B)
  | _, [], pos, _, blk => [(pos / 100000000, blk)]
  | streak, v :: rest, pos, off, blk =>
      if streak then
        let r := streakLoop create add v pos off blk
        r.1 ++ processRunsAux create add false rest r.2.1 r.2.2.1 r.2.2.2
      else
        let pos1 := pos + v
        if 100000000 ≤ pos1 - off then
          ((pos1 - v) / 100000000, blk) ::
            processRunsAux create add true rest pos1
              (pos1 / 100000000 * 100000000) create
        else
          processRunsAux create add true rest pos1 off blk

/-- `ISBNsBinaryProcessor.process` on a packed binary blob, parametrized
by the abstract `create_block` / `add_to_block` operations. -/
def processRuns {B : Type} (create : B) (add : B → Nat → Nat → B)
    (packed : List Nat) : List (Nat × B) :=
  processRunsAux create add true (u32sOfBytes packed) 0 0 create

/-- Counting instantiation: a block is the number of `add_to_block` calls
that landed in it. -/
def processRunsCount (packed : List Nat) : List (Nat × Nat) :=
  processRuns 0 (fun b _ _ => b + 1) packed

/-- Sum of the values at even indices of a list (the `present_count`
entries of the alternating run encoding). -/
def evenIdxSum : List Nat → Nat
  | [] => 0
  | [v] => v
  | v :: _ :: rest => v + evenIdxSum rest

/-- Alternating sum helper tracking the streak flag. -/
def altSum : Bool → List Nat → Nat
  | _, [] => 0
  | true, v :: rest => v + altSum false rest
  | false, _ :: rest => altSum true rest

/-! ## Record codec (`isbn_props_decoder.ISBNPropsDecoder.decode_stream`
and the encoding half of
`processor_data_handler.DataHandler._create_bytes`) -/

/-- A decoded record (`ISBNPropsRecord`). -/
structure ISBNPropsRecord where
  isbn_positions : List Nat
  holdings_count : Option Nat
  year : Option Nat
deriving DecidableEq

/-- Number of payload bytes announced by a start byte: low six bits give
the position count, bit 7 flags a holdings byte, bit 6 a year byte. -/
def recordSize (b : Nat) : Nat :=
  (b &&& 63) * 4 + (if b &&& 128 ≠ 0 then 1 else 0)
    + (if b &&& 64 ≠ 0 then 1 else 0)

/-- `int.from_bytes(..., byteorder='big')`. -/
def beBytesToNat (bs : List Nat) : Nat :=
  bs.foldl (fun acc b => acc * 256 + b) 0

/-- Read `n` big-endian 32-bit positions from the payload. -/
def readPositions : Nat → List Nat → List Nat
  | 0, _ => []
  | n + 1, data => beBytesToNat (data.take 4) :: readPositions n (data.drop 4)

/-- Build the record parsed from a start byte and its full payload. -/
def parseRecord (b : Nat) (record_data : List Nat) : ISBNPropsRecord :=
  let has_count := b &&& 128 ≠ 0
  let has_year := b &&& 64 ≠ 0
  let isbn_count := b &&& 63
  let afterH := if has_count then record_data.drop 1 else record_data
  { isbn_positions := readPositions isbn_count
      (if has_year then afterH.drop 1 else afterH)
    holdings_count := if has_count then some (record_data.headD 0) else none
    year := if has_year then some (2025 - afterH.headD 0) else none }

/-- `ISBNPropsDecoder.decode_stream` over a byte list: returns the yielded
records together with an error flag that is `true` exactly when the
Python generator raises `ValueError("Incomplete record data")`. Records
yielded before the error are kept, mirroring generator semantics. -/
def decodeStream : List Nat → List ISBNPropsRecord × Bool
  | [] => ([], false)
  | b :: rest =>
      if rest.length < recordSize b then ([], true)
      else
        let r := decodeStream (rest.drop (recordSize b))
        (parseRecord b (rest.take (recordSize b)) :: r.1, r.2)
termination_by bs => bs.length
decreasing_by
  simp only [List.length_drop, List.length_cons]
  omega

/-- A byte list that is a concatenation of complete records: a start byte
followed by exactly the payload it announces, repeatedly. -/
inductive IsRecordConcat : List Nat → Prop
  | nil : IsRecordConcat []
  | cons (b : Nat) (body rest : List Nat)
      (hlen : body.length = recordSize b) (h : IsRecordConcat rest) :
      IsRecordConcat (b :: body ++ rest)

/-- A byte list that ends strictly inside some record's announced extent:
a concatenation of complete records followed by a start byte whose
payload is cut short. -/
def EndsMidRecord (bs : List Nat) : Prop :=
  ∃ pre b tail, IsRecordConcat pre ∧ bs = pre ++ b :: tail ∧
    tail.length < recordSize b

/-- `struct.pack('>I', p)`: four big-endian bytes. -/
def packBE (p : Nat) : List Nat :=
  [p / 16777216 % 256, p / 65536 % 256, p / 256 % 256, p % 256]

/-- Start byte of a chunk:
`(has_count << 7) | (has_year << 6) | (isbn_count & 0x0F)`. -/
def startByte (has_count has_year : Bool) (isbn_count : Nat) : Nat :=
  ((if has_count then 1 else 0) <<< 7) |||
    ((if has_year then 1 else 0) <<< 6) ||| (isbn_count &&& 15)

/-- Header bytes of a chunk: start byte, then the clamped holdings byte
when present, then the clamped year byte when present. (`max(0, ·)` in
the source is the identity on naturals.) -/
def chunkHeader (holdings_count year : Option Nat) (isbn_count : Nat) :
    List Nat :=
  startByte holdings_count.isSome year.isSome isbn_count
    :: ((match holdings_count with
          | some h => [min 255 h]
          | none => []) ++
        (match year with
          | some y => [min 255 (2025 - y)]
          | none => []))

/-- The chunking loop of `_create_bytes`: emit the sorted positions in
chunks of up to `MAX_CHUNK_SIZE = 15`, each with its own header. -/
def encodeChunksFrom (holdings_count year : Option Nat) :
    List Nat → List Nat
  | [] => []
  | a :: t =>
      (chunkHeader holdings_count year ((a :: t).take 15).length ++
        (((a :: t).take 15).map packBE).flatten) ++
        encodeChunksFrom holdings_count year ((a :: t).drop 15)
termination_by l => l.length
decreasing_by
  simp only [List.length_drop, List.length_cons]
  omega

/-- The encoding half of `DataHandler._create_bytes`, starting from the
set of converted integer positions: sort, drop the record when there are
no positions or neither holdings nor year is known, otherwise emit the
concatenated chunks. -/
def createBytesFromPositions (positions : Finset Nat)
    (holdings_count year : Option Nat) : Option (List Nat) :=
  let isbn_positions := positions.sort (· ≤ ·)
  if 0 < isbn_positions.length ∧
      (holdings_count.isSome || year.isSome) = true then
    some (encodeChunksFrom holdings_count year isbn_positions)
  else none

/-- Split a list into consecutive chunks of at most 15 elements. -/
def chunksOf15 : List Nat → List (List Nat)
  | [] => []
  | a :: t => (a :: t).take 15 :: chunksOf15 ((a :: t).drop 15)
termination_by l => l.length
decreasing_by
  simp only [List.length_drop, List.length_cons]
  omega

/-! ## ISBN string utilities
(`processor_data_handler.verify_isbn`, `DataHandler._get_isbn_position`,
the mis-prefix rewrite of `_create_bytes`, and
`isbn_filter.filter_invalid_isbns`). ISBN strings are `List Char`. -/

/-- Numeric value of a digit character (`int(c)` on `'0'..'9'`). -/
def charDigit (c : Char) : Nat := c.toNat - '0'.toNat

/-- `int(s)` on a string of decimal digits. -/
def natOfDigits (ds : List Char) : Nat :=
  ds.foldl (fun acc c => acc * 10 + charDigit c) 0

/-- `verify_isbn`: strip hyphens and spaces, then check the ISBN-10 or
ISBN-13 checksum; anything else is invalid. -/
def verify_isbn (isbn : List Char) : Bool :=
  let s := (isbn.filter (· ≠ '-')).filter (· ≠ ' ')
  if s.length = 10 then
    if !((s.take 9).all Char.isDigit) ||
        !(['0','1','2','3','4','5','6','7','8','9','X'].contains
            (s.getLastD ' ')) then
      false
    else
      (((s.take 9).zip [10, 9, 8, 7, 6, 5, 4, 3, 2]).foldl
          (fun acc p => acc + charDigit p.1 * p.2) 0
        + (if s.getLastD ' ' = 'X' then 10
            else charDigit (s.getLastD ' '))) % 11 = 0
  else if s.length = 13 then
    if !(s.all Char.isDigit) then false
    else
      let sum := ((s.take 12).zip [1, 3, 1, 3, 1, 3, 1, 3, 1, 3, 1, 3]).foldl
          (fun acc p => acc + charDigit p.1 * p.2) 0
      (10 - sum % 10) % 10 = charDigit (s.getLastD ' ')
  else false

/-- `DataHandler._get_isbn_position`: keep the digits, drop the check
digit, pad short bases with a `978` prefix, take the trailing 12 digits
and subtract `978 * 10^9`; valid only in `[0, 2^32)`. -/
def get_isbn_position (isbn : List Char) : Option Nat :=
  if isbn.isEmpty then none
  else
    let base := (isbn.filter Char.isDigit).dropLast
    if base.isEmpty then none
    else
      let base2 := if base.length < 12 then '9' :: '7' :: '8' :: base
        else base
      let tail12 := base2.drop (base2.length - 12)
      let position : Int := (natOfDigits tail12 : Int) - 978000000000
      if 0 ≤ position ∧ position < 2 ^ 32 then some position.toNat else none

/-- The mis-prefix rewrite inside `_create_bytes`: positions at or above
`10^9` outside the two carved-out bands `[1.1e9, 1.14e9)` and
`[1.8e9, 1.9e9)` are assumed to be 979-prefixed by mistake and shifted
down by `10^9`. -/
def fixIsbnPosition (pos : Nat) : Nat :=
  if 1000000000 ≤ pos ∧
      ¬(1100000000 ≤ pos ∧ pos < 1140000000) ∧
      ¬(1800000000 ≤ pos ∧ pos < 1900000000) then
    pos - 1000000000
  else pos

/-- Stage 1 of `isbn_filter.filter_invalid_isbns`: the ISBN-10 members. -/
def isbn10sOf (isbns : Finset (List Char)) : Finset (List Char) :=
  isbns.filter fun i => i.length = 10

/-- Stage 1: the 9-character bases of the ISBN-10s. -/
def basesOf (isbns : Finset (List Char)) : Finset (List Char) :=
  (isbn10sOf isbns).image fun i => i.take 9

/-- Stage 2: ISBN-13s that are `978` plus a known base. -/
def validIsbn13sOf (isbns : Finset (List Char)) : Finset (List Char) :=
  isbns.filter fun i => i.length = 13 ∧
    ∃ b ∈ basesOf isbns, ('9' :: '7' :: '8' :: b).isPrefixOf i = true

/-- Stage 3: ISBN-13s that are neither valid nor improperly start with a
known base. -/
def remainingOf (isbns : Finset (List Char)) : Finset (List Char) :=
  isbns.filter fun i => i.length = 13 ∧
    i ∉ validIsbn13sOf isbns ∧
    ¬∃ b ∈ basesOf isbns, b.isPrefixOf i = true

/-- Stage 4: remaining ISBN-13s that start with `978`. -/
def isbns978Of (isbns : Finset (List Char)) : Finset (List Char) :=
  (remainingOf isbns).filter fun i => ['9', '7', '8'].isPrefixOf i = true

/-- Stage 5: bases enlarged with the middle nine digits of the kept
`978` strings. -/
def bases2Of (isbns : Finset (List Char)) : Finset (List Char) :=
  basesOf isbns ∪ (isbns978Of isbns).image fun i => (i.drop 3).take 9

/-- Stage 6: re-filter the remaining ISBN-13s against the enlarged
bases. -/
def remaining2Of (isbns : Finset (List Char)) : Finset (List Char) :=
  (remainingOf isbns).filter fun i =>
    ¬∃ b ∈ bases2Of isbns, b.isPrefixOf i = true

/-- Stage 7: what is left and not a duplicate of a kept `978` string nor
`979` plus a known base. -/
def isbns979Of (isbns : Finset (List Char)) : Finset (List Char) :=
  (remaining2Of isbns).filter fun i => i ∉ isbns978Of isbns ∧
    ¬∃ b ∈ bases2Of isbns, ('9' :: '7' :: '9' :: b).isPrefixOf i = true

/-- `isbn_filter.filter_invalid_isbns`: union of the kept groups. -/
def filter_invalid_isbns (isbns : Finset (List Char)) :
    Finset (List Char) :=
  isbn10sOf isbns ∪ validIsbn13sOf isbns ∪ isbns978Of isbns ∪
    isbns979Of isbns

/-- The position-collection stage of `_create_bytes`: checksum-verify,
apply the set-level filter, convert each survivor to a position and apply
the mis-prefix rewrite, collecting into a set. -/
def createPositions (isbns : Finset (List Char)) : Finset Nat :=
  (filter_invalid_isbns (isbns.filter fun i => verify_isbn i = true)).biUnion
    fun i =>
      match get_isbn_position i with
      | some p => {fixIsbnPosition p}
      | none => ∅

/-- `DataHandler._create_bytes` as a function of the relevant state. -/
def createBytes (isbns : Finset (List Char))
    (holdings_count year : Option Nat) : Option (List Nat) :=
  if isbns = ∅ then none
  else createBytesFromPositions (createPositions isbns) holdings_count year

/-! ## Year extraction
(`processor_most_likely_year.extract_most_likely_year`). The regex
`(?:^|[^\d])(\d{4})(?:[^\d]|$)` is scanned left to right with
non-overlapping matches, each consuming its trailing boundary character,
as `re.finditer` does. -/

/-- Try to match four digits followed by a non-digit or the string end at
the current position, returning the year value and the rest of the
string after the consumed trailing boundary character. -/
def try4 (s : List Char) : Option (Nat × List Char) :=
  match s with
  | d1 :: d2 :: d3 :: d4 :: t =>
      if d1.isDigit ∧ d2.isDigit ∧ d3.isDigit ∧ d4.isDigit then
        match t with
        | [] => some (charDigit d1 * 1000 + charDigit d2 * 100 +
            charDigit d3 * 10 + charDigit d4, [])
        | e :: ts =>
            if e.isDigit then none
            else some (charDigit d1 * 1000 + charDigit d2 * 100 +
              charDigit d3 * 10 + charDigit d4, ts)
      else none
  | _ => none

/-- The scanning loop away from the string start: a match here needs a
leading non-digit boundary character; on failure the scan advances one
character. -/
def scanFrom : List Char → List Nat
  | [] => []
  | c :: rest =>
      if c.isDigit then scanFrom rest
      else
        match _h : try4 rest with
        | some (y, rest') => y :: scanFrom rest'
        | none => scanFrom rest
termination_by s => s.length
decreasing_by
  all_goals simp only [List.length_cons]
  all_goals try omega
  have key : ∀ s y r, try4 s = some (y, r) → r.length + 4 ≤ s.length := by
    intro s y r hs
    rcases s with _ | ⟨d1, _ | ⟨d2, _ | ⟨d3, _ | ⟨d4, t⟩⟩⟩⟩
    · exact Option.noConfusion hs
    · exact Option.noConfusion hs
    · exact Option.noConfusion hs
    · exact Option.noConfusion hs
    · simp only [try4] at hs
      split_ifs at hs with h1
      · rcases t with _ | ⟨e, ts⟩
        · simp only [Option.some.injEq, Prod.mk.injEq] at hs
          rw [← hs.2]
          simp
        · by_cases h2 : e.isDigit
          · simp [h2] at hs
          · simp only [h2, if_false, Bool.false_eq_true,
              Option.some.injEq, Prod.mk.injEq] at hs
            rw [← hs.2]
            simp only [List.length_cons]
            omega
  have := key _ _ _ _h
  omega

/-- All matches of the year regex in one string, in order: at position 0
the `^` alternative allows a match with no leading boundary character;
afterwards `scanFrom` takes over. -/
def yearsIn (s : List Char) : List Nat :=
  match try4 s with
  | some (y, rest) => y :: scanFrom rest
  | none => scanFrom s

/-- The candidate list `years` that `extract_most_likely_year` counts
frequencies over: the matched values of each string in order, kept when
`1450 ≤ y ≤ 2025`. -/
def extractYearsList (strings : List (List Char)) : List Nat :=
  (strings.map fun t => (yearsIn t).filter fun y =>
    1450 ≤ y ∧ y ≤ 2025).flatten

/-- First pair of consecutive sorted candidates at distance at most 5;
returns the earlier element. -/
def proximityPick : List Nat → Option Nat
  | a :: b :: rest => if b - a ≤ 5 then some a else proximityPick (b :: rest)
  | _ => none

/-- `extract_most_likely_year`: highest frequency wins; on ties sort
ascending and return the earlier element of the first close pair
(difference at most 5), otherwise the largest candidate. -/
def extract_most_likely_year (strings : List (List Char)) : Option Nat :=
  let years := extractYearsList strings
  if years = [] then none
  else
    let maxCount := (years.dedup.map fun y => years.count y).foldr max 0
    let candidates := years.dedup.filter fun y => years.count y = maxCount
    if candidates.length = 1 then some (candidates.headD 0)
    else
      let sorted := candidates.mergeSort (· ≤ ·)
      match proximityPick sorted with
      | some a => some a
      | none => some (sorted.getLastD 0)

/-- A 4-digit run of `s` bounded on both sides by a non-digit character
or a string end, with value `y` (the spec's notion of a candidate). -/
def IsBoundedRun (s : List Char) (y : Nat) : Prop :=
  ∃ pre d1 d2 d3 d4 post,
    s = pre ++ d1 :: d2 :: d3 :: d4 :: post ∧
    d1.isDigit ∧ d2.isDigit ∧ d3.isDigit ∧ d4.isDigit ∧
    (pre.getLast? = none ∨ ∃ c, pre.getLast? = some c ∧ c.isDigit = false) ∧
    (post.head? = none ∨ ∃ c, post.head? = some c ∧ c.isDigit = false) ∧
    y = charDigit d1 * 1000 + charDigit d2 * 100 +
      charDigit d3 * 10 + charDigit d4

/-- A bounded run whose left boundary is a real character (used for scan
positions past the string start). -/
def InnerRun (s : List Char) (y : Nat) : Prop :=
  ∃ pre d1 d2 d3 d4 post,
    s = pre ++ d1 :: d2 :: d3 :: d4 :: post ∧
    d1.isDigit ∧ d2.isDigit ∧ d3.isDigit ∧ d4.isDigit ∧
    (∃ c, pre.getLast? = some c ∧ c.isDigit = false) ∧
    (post.head? = none ∨ ∃ c, post.head? = some c ∧ c.isDigit = false) ∧
    y = charDigit d1 * 1000 + charDigit d2 * 100 +
      charDigit d3 * 10 + charDigit d4

/-! ## ISBN string → full-canvas pixel (`common.get_pos`). The exponent
`n` goes negative once more than ten digits have been consumed, at which
point Python's `10 ** n` produces a float; the fractional arithmetic is
modelled exactly over `ℚ`. -/

/-- Loop of `get_pos`: digits are read left to right, alternating rows
(`y`) and columns (`x`) with weight `10^n`; after the first column digit
(`n = 4`) the 10-by-2 top-level layout is folded into 5-by-4, and `n`
decreases after every column digit. -/
def getPosAux : List Nat → Int → Bool → ℚ → ℚ → ℚ × ℚ
  | [], _, _, x, y => (x, y)
  | d :: rest, n, is_row, x, y =>
      if is_row then
        getPosAux rest n false x (y + (d : ℚ) * (10 : ℚ) ^ n)
      else
        let x1 := x + (d : ℚ) * (10 : ℚ) ^ n
        if n = 4 then
          getPosAux rest (n - 1) true
            (x1 - 50000 * (⌊x1 / 50000⌋ : ℤ))
            (2 * y + (⌊x1 / 50000⌋ : ℤ))
        else
          getPosAux rest (n - 1) true x1 y

/-- `common.get_pos` on a string of digit characters. -/
def get_pos (isbn : List Char) : ℚ × ℚ :=
  getPosAux (isbn.map charDigit) 4 true 0 0

/-! ## Filter idempotence (`isbn_filter.filter_invalid_isbns`) -/

/-! ## Book aggregator (`processor_data_handler.DataHandler.process` and
`_merge_record_data`). A line's relevant fields; holdings values are
modelled as naturals (counts), making the source's `max(0, ·)` clamp in
the encoder the identity. The `records` debug list kept by the handler
never influences the emitted bytes and is not modelled. -/

structure RecordLine where
  isbns : List (List Char)
  isbn13 : Option (List Char)
  totalHoldingCount : Option Nat
  total_holding_count : Option Nat
  machineReadableDate : Option (List Char)
  publicationDate : Option (List Char)
  date : Option (List Char)
deriving DecidableEq

/-- Aggregator state: the current OCLC id plus the merged fields. -/
structure DH where
  current_id : Option (List Char)
  isbns : Finset (List Char)
  holdings_count : Option Nat
  year : Option Nat
deriving DecidableEq

def initDH : DH := ⟨none, ∅, none, none⟩

/-- One holdings update: first value is adopted, later ones take `max`. -/
def mergeHoldings (h : Option Nat) (v : Nat) : Option Nat :=
  match h with
  | none => some v
  | some x => some (max x v)

/-- Apply an optional holdings field (skipped when absent). -/
def applyHoldings (h : Option Nat) (v : Option Nat) : Option Nat :=
  match v with
  | none => h
  | some x => mergeHoldings h x

/-- Apply the extracted year (skipped when falsy): first value adopted,
later ones take `min`. -/
def applyYear (y : Option Nat) (ny : Option Nat) : Option Nat :=
  match ny with
  | none => y
  | some v =>
      if v = 0 then y
      else
        match y with
        | none => some v
        | some w => some (min w v)

/-- The date fields present on a line, in the source's order. -/
def yearFields (l : RecordLine) : List (List Char) :=
  (match l.machineReadableDate with | some s => [s] | none => []) ++
  (match l.publicationDate with | some s => [s] | none => []) ++
  (match l.date with | some s => [s] | none => [])

/-- `DataHandler._merge_record_data`: union in the line's ISBN strings,
fold the holdings fields with `max`, fold the extracted year with
`min`. -/
def mergeRecordData (dh : DH) (l : RecordLine) : DH :=
  { dh with
    isbns := dh.isbns ∪
      (l.isbns.toFinset ∪
        (match l.isbn13 with | some s => {s} | none => ∅)),
    holdings_count :=
      applyHoldings (applyHoldings dh.holdings_count l.totalHoldingCount)
        l.total_holding_count,
    year := applyYear dh.year (extract_most_likely_year (yearFields l)) }

/-- `DataHandler.process` on one line: `oclc` is
`data['metadata']['oclc_number']` (`none` forces the final flush). The
second component is the bytes emitted by this call, if any. -/
def processDH (dh : DH) (oclc : Option (List Char)) (l : RecordLine) :
    DH × Option (List Nat) :=
  match oclc with
  | none =>
      if dh.current_id ≠ none then
        (initDH, createBytes dh.isbns dh.holdings_count dh.year)
      else (dh, none)
  | some oid =>
      if dh.current_id ≠ none ∧ dh.current_id ≠ some oid then
        (mergeRecordData { initDH with current_id := some oid } l,
          createBytes dh.isbns dh.holdings_count dh.year)
      else
        let dh1 := if dh.current_id = none
          then { dh with current_id := some oid } else dh
        (mergeRecordData dh1 l, none)

/-- An empty record payload (the worker's final `process({})` call). -/
def emptyLine : RecordLine := ⟨[], none, none, none, none, none, none⟩

/-- Feed lines that all carry OCLC id `oclc` to a fresh handler in order
and then force the final flush; result is the flush's bytes. -/
def runLines (oclc : List Char) (ls : List RecordLine) :
    Option (List Nat) :=
  let final := ls.foldl (fun dh l => (processDH dh (some oclc) l).1) initDH
  (processDH final none emptyLine).2

/-! ## Result writer (`processor_main.write_results`). The writer thread
pops buffers from the shared result queue until the `None` sentinel and
appends each to the output file in the order received. A run's queue
content is modelled as an interleaving of the per-worker buffer
sequences: `multiprocessing.Queue` keeps each producer's puts in order
but interleaves different producers arbitrarily. -/

/-- `write_results`: pop until the sentinel, appending each buffer. -/
def write_results : List (Option (List Nat)) → List Nat
  | [] => []
  | none :: _ => []
  | some buf :: rest => buf ++ write_results rest

/-- `arrivals` is a possible order of queue receipt for the per-worker
buffer sequences `bufs` (worker `w`'s puts are `bufs[w]`, in order). -/
def IsInterleaving (arrivals : List (Nat × List Nat))
    (bufs : List (List (List Nat))) : Prop :=
  (∀ w (hw : w < bufs.length),
    (arrivals.filter fun p => p.1 = w).map Prod.snd = bufs.get ⟨w, hw⟩) ∧
  ∀ p ∈ arrivals, p.1 < bufs.length

/-!
# Theorems
-/

/-! ## Theorems: ISBN position → block pixel (`common.get_isbn_code_pos`) -/

theorem evenDigits_zero : evenDigits 0 = 0 := by
  unfold evenDigits; simp

theorem evenDigits_pos (c : Nat) (hc : c ≠ 0) :
    evenDigits c = c % 10 + 10 * evenDigits (c / 100) := by
  conv_lhs => unfold evenDigits
  simp [hc]

theorem oddDigits_zero : oddDigits 0 = 0 := by
  unfold oddDigits; simp [evenDigits_zero]

/-- Characterization of the loop at even and odd digit indices. -/
theorem getIsbnCodePosAux_spec (c : Nat) : ∀ m x y,
    getIsbnCodePosAux c (2 * m) x y
      = (x + 10 ^ m * evenDigits c, y + 10 ^ m * oddDigits c) ∧
    getIsbnCodePosAux c (2 * m + 1) x y
      = (x + 10 ^ (m + 1) * oddDigits c, y + 10 ^ m * evenDigits c) := by
  induction c using Nat.strong_induction_on with
  | _ c ih =>
    intro m x y
    rcases Nat.eq_zero_or_pos c with hc | hc
    · subst hc
      constructor <;>
        · unfold getIsbnCodePosAux
          simp [evenDigits_zero, oddDigits_zero]
    have hdiv : c / 10 < c := Nat.div_lt_self hc (by norm_num)
    have hediv : evenDigits c = c % 10 + 10 * evenDigits (c / 100) :=
      evenDigits_pos c (Nat.pos_iff_ne_zero.mp hc)
    have hodd : oddDigits c = evenDigits (c / 10) := rfl
    have hodd10 : oddDigits (c / 10) = evenDigits (c / 100) := by
      unfold oddDigits
      rw [Nat.div_div_eq_div_mul]
    constructor
    · -- even index 2m: digit goes to x, recurse at odd index
      conv_lhs => unfold getIsbnCodePosAux
      have hmod : (2 * m) % 2 = 0 := by omega
      have hdiv2 : (2 * m) / 2 = m := by omega
      simp only [hc, dif_pos, hmod, hdiv2, if_true]
      have := (ih (c / 10) hdiv m (x + c % 10 * 10 ^ m) y).2
      rw [this, hediv, hodd, hodd10]
      simp only [Prod.mk.injEq]
      constructor <;> ring
    · -- odd index 2m+1: digit goes to y, recurse at even index 2(m+1)
      conv_lhs => unfold getIsbnCodePosAux
      have hmod : (2 * m + 1) % 2 = 1 := by omega
      have hdiv2 : (2 * m + 1) / 2 = m := by omega
      have h21 : 2 * m + 1 + 1 = 2 * (m + 1) := by ring
      simp only [hc, dif_pos, hmod, hdiv2, h21]
      norm_num
      have := (ih (c / 10) hdiv (m + 1) x (y + c % 10 * 10 ^ m)).1
      rw [this, hediv, hodd, hodd10]
      simp only [Prod.mk.injEq]
      constructor <;> ring

theorem get_isbn_code_pos_eq (c : Nat) :
    get_isbn_code_pos c = (evenDigits c, oddDigits c) := by
  have h := (getIsbnCodePosAux_spec c 0 0 0).1
  simpa [get_isbn_code_pos] using h

theorem interleaveDigits_eq (x y : Nat) (h : ¬(x = 0 ∧ y = 0)) :
    interleaveDigits x y
      = x % 10 + 10 * (y % 10) + 100 * interleaveDigits (x / 10) (y / 10) := by
  conv_lhs => unfold interleaveDigits
  simp [h]

theorem interleaveDigits_zero : interleaveDigits 0 0 = 0 := by
  unfold interleaveDigits; simp

theorem evenDigits_zero_oddDigits_zero (c : Nat)
    (he : evenDigits c = 0) (ho : oddDigits c = 0) : c = 0 := by
  induction c using Nat.strong_induction_on with
  | _ c ih =>
    rcases Nat.eq_zero_or_pos c with hc | hc
    · exact hc
    exfalso
    have hne : c ≠ 0 := Nat.pos_iff_ne_zero.mp hc
    rw [evenDigits_pos c hne] at he
    have h1 : c % 10 = 0 := by omega
    have h2 : evenDigits (c / 100) = 0 := by omega
    rcases Nat.eq_zero_or_pos (c / 10) with hd | hd
    · omega
    have hdne : c / 10 ≠ 0 := Nat.pos_iff_ne_zero.mp hd
    rw [oddDigits, evenDigits_pos _ hdne] at ho
    have h3 : (c / 10) % 10 = 0 := by omega
    have h4 : evenDigits (c / 10 / 100) = 0 := by omega
    have h5 : oddDigits (c / 100) = 0 := by
      rw [oddDigits]
      have hcomm : c / 100 / 10 = c / 10 / 100 := by
        rw [Nat.div_div_eq_div_mul, Nat.div_div_eq_div_mul]
      rw [hcomm]
      exact h4
    have h6 : c / 100 = 0 :=
      ih (c / 100) (Nat.div_lt_self hc (by norm_num)) h2 h5
    omega

theorem interleave_evenDigits_oddDigits (c : Nat) :
    interleaveDigits (evenDigits c) (oddDigits c) = c := by
  induction c using Nat.strong_induction_on with
  | _ c ih =>
    rcases Nat.eq_zero_or_pos c with hc | hc
    · subst hc
      rw [evenDigits_zero, oddDigits_zero, interleaveDigits_zero]
    have hne : c ≠ 0 := Nat.pos_iff_ne_zero.mp hc
    have hboth : ¬(evenDigits c = 0 ∧ oddDigits c = 0) := by
      rintro ⟨he, ho⟩
      exact hne (evenDigits_zero_oddDigits_zero c he ho)
    rw [interleaveDigits_eq _ _ hboth]
    have he : evenDigits c = c % 10 + 10 * evenDigits (c / 100) :=
      evenDigits_pos c hne
    have he10 : evenDigits (c / 100) = evenDigits c / 10 := by omega
    have hemod : evenDigits c % 10 = c % 10 := by omega
    -- decompose the odd-digit number
    have hoddc : oddDigits c = evenDigits (c / 10) := rfl
    have homod : oddDigits c % 10 = (c / 10) % 10 := by
      rcases Nat.eq_zero_or_pos (c / 10) with hd | hd
      · rw [hoddc, hd, evenDigits_zero]
      · rw [hoddc, evenDigits_pos _ (Nat.pos_iff_ne_zero.mp hd)]; omega
    have hodiv : oddDigits c / 10 = oddDigits (c / 100) := by
      rcases Nat.eq_zero_or_pos (c / 10) with hd | hd
      · rw [hoddc, hd, evenDigits_zero]
        have hc100 : c / 100 = 0 := by omega
        rw [hc100, oddDigits_zero]
      · rw [hoddc, evenDigits_pos _ (Nat.pos_iff_ne_zero.mp hd), oddDigits]
        have hcomm : c / 100 / 10 = c / 10 / 100 := by
          rw [Nat.div_div_eq_div_mul, Nat.div_div_eq_div_mul]
        rw [hcomm]
        omega
    rw [hemod, homod, ← he10, hodiv,
      ih (c / 100) (Nat.div_lt_self hc (by norm_num))]
    omega

theorem evenDigits_oddDigits_interleave (x y : Nat) :
    evenDigits (interleaveDigits x y) = x ∧
    oddDigits (interleaveDigits x y) = y := by
  suffices h : ∀ n x y, x + y = n →
      evenDigits (interleaveDigits x y) = x ∧
      oddDigits (interleaveDigits x y) = y from h (x + y) x y rfl
  intro n
  induction n using Nat.strong_induction_on with
  | _ n ih =>
    intro x y hn
    by_cases h0 : x = 0 ∧ y = 0
    · obtain ⟨hx, hy⟩ := h0
      subst hx; subst hy
      rw [interleaveDigits_zero, evenDigits_zero, oddDigits_zero]
      exact ⟨rfl, rfl⟩
    · rw [interleaveDigits_eq _ _ h0]
      set C := interleaveDigits (x / 10) (y / 10) with hC
      have hlt : x / 10 + y / 10 < n := by
        have hxle := Nat.div_le_self x 10
        have hyle := Nat.div_le_self y 10
        rcases Nat.eq_zero_or_pos x with hx0 | hx0
        · have hy0 : 0 < y := by omega
          have := Nat.div_lt_self hy0 (show 1 < 10 by norm_num)
          omega
        · have := Nat.div_lt_self hx0 (show 1 < 10 by norm_num)
          omega
      obtain ⟨hCe, hCo⟩ := ih _ hlt (x / 10) (y / 10) rfl
      rw [← hC] at hCe hCo
      set v := x % 10 + 10 * (y % 10) + 100 * C with hv
      constructor
      · -- even digits of v recover x
        rcases Nat.eq_zero_or_pos v with hv0 | hv0
        · have hx10 : x % 10 = 0 := by omega
          have hy10 : y % 10 = 0 := by omega
          have hC0 : C = 0 := by omega
          rw [hC0] at hCe hCo
          rw [evenDigits_zero] at hCe
          rw [hv0, evenDigits_zero]
          omega
        · rw [evenDigits_pos v (Nat.pos_iff_ne_zero.mp hv0)]
          have hvmod : v % 10 = x % 10 := by omega
          have hvdiv : v / 100 = C := by omega
          rw [hvmod, hvdiv, hCe]
          omega
      · -- odd digits of v recover y
        have hv10 : v / 10 = y % 10 + 10 * C := by omega
        rw [oddDigits, hv10]
        rcases Nat.eq_zero_or_pos (y % 10 + 10 * C) with hz0 | hz0
        · have hy10 : y % 10 = 0 := by omega
          have hC0 : C = 0 := by omega
          rw [hC0, oddDigits_zero] at hCo
          rw [hz0, evenDigits_zero]
          omega
        · rw [evenDigits_pos _ (Nat.pos_iff_ne_zero.mp hz0)]
          have hzmod : (y % 10 + 10 * C) % 10 = y % 10 := by omega
          have hzdiv : (y % 10 + 10 * C) / 100 = C / 10 := by omega
          rw [hzmod, hzdiv]
          have : evenDigits (C / 10) = oddDigits C := rfl
          rw [this, hCo]
          omega

theorem evenDigits_lt (k : Nat) :
    ∀ c < 10 ^ (2 * k), evenDigits c < 10 ^ k ∧ oddDigits c < 10 ^ k := by
  induction k with
  | zero =>
    intro c hc
    simp only [Nat.mul_zero, pow_zero, Nat.lt_one_iff] at hc
    subst hc
    rw [evenDigits_zero, oddDigits_zero]
    norm_num
  | succ k ih =>
    intro c hc
    constructor
    · rcases Nat.eq_zero_or_pos c with hc0 | hc0
      · rw [hc0, evenDigits_zero]; positivity
      rw [evenDigits_pos c (Nat.pos_iff_ne_zero.mp hc0)]
      have hdiv : c / 100 < 10 ^ (2 * k) := by
        have h1 : c < 10 ^ (2 * k) * 100 := by
          calc c < 10 ^ (2 * (k + 1)) := hc
          _ = 10 ^ (2 * k) * 100 := by ring
        omega
      have := (ih (c / 100) hdiv).1
      have h10 : (10 : Nat) ^ (k + 1) = 10 * 10 ^ k := by ring
      omega
    · rw [oddDigits]
      rcases Nat.eq_zero_or_pos (c / 10) with hc0 | hc0
      · rw [hc0, evenDigits_zero]; positivity
      rw [evenDigits_pos _ (Nat.pos_iff_ne_zero.mp hc0)]
      have hdiv : c / 10 / 100 < 10 ^ (2 * k) := by
        rw [Nat.div_div_eq_div_mul]
        have h1 : c < 10 ^ (2 * k) * 1000 := by
          calc c < 10 ^ (2 * (k + 1)) := hc
          _ ≤ 10 ^ (2 * k) * 1000 := by
                have : (10 : Nat) ^ (2 * (k + 1)) = 10 ^ (2 * k) * 100 := by
                  ring
                omega
        omega
      have := (ih (c / 10 / 100) hdiv).1
      have h10 : (10 : Nat) ^ (k + 1) = 10 * 10 ^ k := by ring
      omega

theorem interleaveDigits_lt (k : Nat) :
    ∀ x < 10 ^ k, ∀ y < 10 ^ k, interleaveDigits x y < 10 ^ (2 * k) := by
  induction k with
  | zero =>
    intro x hx y hy
    simp only [pow_zero, Nat.lt_one_iff] at hx hy
    subst hx; subst hy
    rw [interleaveDigits_zero]
    norm_num
  | succ k ih =>
    intro x hx y hy
    by_cases h0 : x = 0 ∧ y = 0
    · rw [h0.1, h0.2, interleaveDigits_zero]; positivity
    rw [interleaveDigits_eq _ _ h0]
    have hxd : x / 10 < 10 ^ k := by
      have h10 : (10 : Nat) ^ (k + 1) = 10 * 10 ^ k := by ring
      omega
    have hyd : y / 10 < 10 ^ k := by
      have h10 : (10 : Nat) ^ (k + 1) = 10 * 10 ^ k := by ring
      omega
    have := ih (x / 10) hxd (y / 10) hyd
    have h102 : (10 : Nat) ^ (2 * (k + 1)) = 10 ^ (2 * k) * 100 := by ring
    omega

/-- C5. Position-to-pixel bijection: `get_isbn_code_pos` restricted to
`[0, 10^8)` is a bijection onto `[0, 10^4) × [0, 10^4)`, with `x`
assembled from the even-indexed decimal digits (least-significant first)
and `y` from the odd-indexed digits. -/
theorem get_isbn_code_pos_bijOn :
    Set.BijOn get_isbn_code_pos (Set.Iio (10 ^ 8))
      (Set.Iio (10 ^ 4) ×ˢ Set.Iio (10 ^ 4)) ∧
    ∀ c : Nat, get_isbn_code_pos c = (evenDigits c, oddDigits c) := by
  constructor
  · refine ⟨?_, ?_, ?_⟩
    · intro c hc
      rw [Set.mem_Iio] at hc
      have hb := evenDigits_lt 4 c (by norm_num at hc ⊢; exact hc)
      rw [get_isbn_code_pos_eq]
      constructor <;> simp only [Set.mem_Iio]
      · exact_mod_cast hb.1
      · exact_mod_cast hb.2
    · intro a _ b _ hab
      rw [get_isbn_code_pos_eq, get_isbn_code_pos_eq] at hab
      have h1 : evenDigits a = evenDigits b := congrArg Prod.fst hab
      have h2 : oddDigits a = oddDigits b := congrArg Prod.snd hab
      calc a = interleaveDigits (evenDigits a) (oddDigits a) :=
            (interleave_evenDigits_oddDigits a).symm
        _ = interleaveDigits (evenDigits b) (oddDigits b) := by rw [h1, h2]
        _ = b := interleave_evenDigits_oddDigits b
    · rintro ⟨px, py⟩ hp
      simp only [Set.mem_prod, Set.mem_Iio] at hp
      refine ⟨interleaveDigits px py, ?_, ?_⟩
      · rw [Set.mem_Iio]
        have := interleaveDigits_lt 4 px (by exact_mod_cast hp.1)
          py (by exact_mod_cast hp.2)
        norm_num at this ⊢
        exact this
      · obtain ⟨h1, h2⟩ := evenDigits_oddDigits_interleave px py
        rw [get_isbn_code_pos_eq, h1, h2]
  · exact get_isbn_code_pos_eq

/-! ## Theorems: Packed ISBN runs decoder (`common.ISBNsBinaryProcessor.process`) -/

theorem altSum_true_eq_evenIdxSum : ∀ vs, altSum true vs = evenIdxSum vs := by
  intro vs
  induction vs using evenIdxSum.induct with
  | case1 => rfl
  | case2 v => rfl
  | case3 v w rest ih =>
      show v + altSum false (w :: rest) = v + evenIdxSum rest
      rw [show altSum false (w :: rest) = altSum true rest from rfl, ih]

theorem streakLoop_count (v : Nat) : ∀ pos off blk,
    ((streakLoop 0 (fun b _ _ => b + 1) v pos off blk).1.map Prod.snd).sum
        + (streakLoop 0 (fun b _ _ => b + 1) v pos off blk).2.2.2
      = blk + v ∧
    (streakLoop 0 (fun b _ _ => b + 1) v pos off blk).2.1 = pos + v := by
  induction v with
  | zero => intro pos off blk; simp [streakLoop]
  | succ v ih =>
      intro pos off blk
      simp only [streakLoop]
      by_cases hN : 100000000 ≤ pos + 1 - off
      · simp only [hN, if_true, List.map_cons, List.sum_cons]
        obtain ⟨h1, h2⟩ := ih (pos + 1) ((pos + 1) / 100000000 * 100000000) 0
        constructor
        · omega
        · omega
      · simp only [hN, if_false]
        obtain ⟨h1, h2⟩ := ih (pos + 1) off (blk + 1)
        constructor
        · omega
        · omega

theorem processRunsAux_count (vs : List Nat) : ∀ streak pos off blk,
    ((processRunsAux 0 (fun b _ _ => b + 1) streak vs pos off blk).map
        Prod.snd).sum
      = blk + altSum streak vs := by
  induction vs with
  | nil => intro streak pos off blk; simp [processRunsAux, altSum]
  | cons v rest ih =>
      intro streak pos off blk
      rw [processRunsAux]
      by_cases hs : streak
      · subst hs
        simp only [if_true]
        rw [List.map_append, List.sum_append, ih]
        obtain ⟨h1, h2⟩ := streakLoop_count v pos off blk
        show _ + _ = blk + altSum true (v :: rest)
        rw [show altSum true (v :: rest) = v + altSum false rest from rfl]
        omega
      · simp only [if_neg hs]
        rcases Bool.of_not_eq_true hs with h
        subst h
        by_cases hN : 100000000 ≤ pos + v - off
        · simp only [hN, if_true, List.map_cons, List.sum_cons, ih]
          show blk + (0 + altSum true rest) = blk + altSum false (v :: rest)
          rw [show altSum false (v :: rest) = altSum true rest from rfl]
          omega
        · simp only [hN, if_false, ih]
          rw [show altSum false (v :: rest) = altSum true rest from rfl]

/-- C4. Runs conservation: for a binary blob whose length is a multiple
of 4, decoded as little-endian 32-bit integers alternating
`present_count` / `gap_count` starting with a present count, the total
number of present positions recorded across all yielded blocks (the
number of `add_to_block` calls, counted per block) equals the sum of the
`present_count` values, i.e. of the integers at even indices. -/
theorem processRuns_present_conservation (packed : List Nat)
    (_hlen : packed.length % 4 = 0) :
    ((processRunsCount packed).map Prod.snd).sum
      = evenIdxSum (u32sOfBytes packed) := by
  rw [processRunsCount, processRuns, processRunsAux_count,
    altSum_true_eq_evenIdxSum, Nat.zero_add]

/-- Witness for C4 at the blob `[2,0,0,0, 1,0,0,0, 3,0,0,0]`,
i.e. runs `present 2, gap 1, present 3`. -/
theorem processRuns_present_conservation_witness :
    [2, 0, 0, 0, 1, 0, 0, 0, 3, 0, 0, 0].length % 4 = 0 ∧
    ((processRunsCount [2, 0, 0, 0, 1, 0, 0, 0, 3, 0, 0, 0]).map
        Prod.snd).sum
      = evenIdxSum (u32sOfBytes [2, 0, 0, 0, 1, 0, 0, 0, 3, 0, 0, 0]) :=
  ⟨by decide,
    processRuns_present_conservation [2, 0, 0, 0, 1, 0, 0, 0, 3, 0, 0, 0]
      (by decide)⟩

/-! ## Theorems: Record codec (`isbn_props_decoder` / `processor_data_handler._create_bytes`) -/

theorem decodeStream_nil : decodeStream [] = ([], false) := by
  simp [decodeStream]

theorem decodeStream_cons (b : Nat) (rest : List Nat) :
    decodeStream (b :: rest)
      = if rest.length < recordSize b then ([], true)
        else (parseRecord b (rest.take (recordSize b)) ::
                (decodeStream (rest.drop (recordSize b))).1,
              (decodeStream (rest.drop (recordSize b))).2) := by
  rw [decodeStream]

theorem decodeStream_cons_complete (b : Nat) (body t : List Nat)
    (hlen : body.length = recordSize b) :
    decodeStream (b :: body ++ t)
      = (parseRecord b body :: (decodeStream t).1, (decodeStream t).2) := by
  rw [List.cons_append, decodeStream_cons]
  have hge : ¬((body ++ t).length < recordSize b) := by
    simp only [List.length_append]
    omega
  simp only [hge, if_false]
  rw [List.take_append_of_le_length (by omega),
    List.drop_append_of_le_length (by omega)]
  rw [← hlen, List.take_length, List.drop_length]
  simp

theorem decodeStream_append_complete (pre : List Nat)
    (hpre : IsRecordConcat pre) : ∀ suffix,
    decodeStream (pre ++ suffix)
      = ((decodeStream pre).1 ++ (decodeStream suffix).1,
          (decodeStream suffix).2) := by
  induction hpre with
  | nil => intro suffix; simp [decodeStream]
  | cons b body rest hlen _hrest ih =>
      intro suffix
      have h1 : (b :: body ++ rest) ++ suffix = b :: body ++ (rest ++ suffix) := by
        simp
      rw [h1, decodeStream_cons_complete b body (rest ++ suffix) hlen, ih,
        decodeStream_cons_complete b body rest hlen]
      simp

theorem decodeStream_ok_of_concat (bs : List Nat)
    (h : IsRecordConcat bs) : (decodeStream bs).2 = false := by
  induction h with
  | nil => rw [decodeStream_nil]
  | cons b body rest hlen _hrest ih =>
      rw [decodeStream_cons_complete b body rest hlen]
      exact ih

theorem decodeStream_concat_of_ok : ∀ bs : List Nat,
    (decodeStream bs).2 = false → IsRecordConcat bs := by
  suffices h : ∀ n, ∀ bs : List Nat, bs.length = n →
      (decodeStream bs).2 = false → IsRecordConcat bs from
    fun bs => h bs.length bs rfl
  intro n
  induction n using Nat.strong_induction_on with
  | _ n ih =>
    intro bs hn
    match bs with
    | [] => intro _; exact IsRecordConcat.nil
    | b :: rest =>
        intro hok
        rw [decodeStream_cons] at hok
        by_cases hlt : rest.length < recordSize b
        · rw [if_pos hlt] at hok
          exact absurd hok (by simp)
        · rw [if_neg hlt] at hok
          have hrec : IsRecordConcat (rest.drop (recordSize b)) := by
            refine ih (rest.drop (recordSize b)).length ?_ _ rfl hok
            simp only [List.length_drop, List.length_cons] at hn ⊢
            omega
          have hsplit : b :: rest
              = b :: rest.take (recordSize b) ++ rest.drop (recordSize b) := by
            simp
          rw [hsplit]
          exact IsRecordConcat.cons b _ _
            (by simp only [List.length_take]; omega) hrec

theorem decodeStream_err_of_endsMid (bs : List Nat)
    (h : EndsMidRecord bs) : (decodeStream bs).2 = true := by
  obtain ⟨pre, b, tail, hpre, hbs, hlen⟩ := h
  subst hbs
  rw [decodeStream_append_complete pre hpre (b :: tail)]
  simp only
  rw [decodeStream_cons, if_pos hlen]

theorem decodeStream_endsMid_of_err : ∀ bs : List Nat,
    (decodeStream bs).2 = true → EndsMidRecord bs := by
  suffices h : ∀ n, ∀ bs : List Nat, bs.length = n →
      (decodeStream bs).2 = true → EndsMidRecord bs from
    fun bs => h bs.length bs rfl
  intro n
  induction n using Nat.strong_induction_on with
  | _ n ih =>
    intro bs hn
    match bs with
    | [] =>
        intro herr
        rw [decodeStream_nil] at herr
        exact absurd herr (by simp)
    | b :: rest =>
        intro herr
        rw [decodeStream_cons] at herr
        by_cases hlt : rest.length < recordSize b
        · exact ⟨[], b, rest, IsRecordConcat.nil, by simp, hlt⟩
        · rw [if_neg hlt] at herr
          have hrec : EndsMidRecord (rest.drop (recordSize b)) := by
            refine ih (rest.drop (recordSize b)).length ?_ _ rfl herr
            simp only [List.length_drop, List.length_cons] at hn ⊢
            omega
          obtain ⟨pre, b', tail, hpre, heq, hlen'⟩ := hrec
          refine ⟨b :: rest.take (recordSize b) ++ pre, b', tail, ?_, ?_, hlen'⟩
          · exact IsRecordConcat.cons b _ _
              (by simp only [List.length_take]; omega) hpre
          · have : rest = rest.take (recordSize b) ++ rest.drop (recordSize b) := by
              simp
            calc b :: rest
                = b :: (rest.take (recordSize b) ++ rest.drop (recordSize b)) := by
                  rw [← this]
              _ = (b :: rest.take (recordSize b) ++ pre) ++ b' :: tail := by
                  rw [heq]; simp

/-- C6. Incomplete-record behaviour of `decode_stream`: the decoder
terminates normally exactly on streams that are concatenations of
complete records (so also on the empty stream), raises the
incomplete-record `ValueError` exactly when the stream ends strictly
inside a record's announced extent, and on a stream that extends a
complete prefix it still yields every record of that prefix (so a record
is yielded iff its full extent is contained in the stream, and never
partially). -/
theorem decodeStream_incomplete_record_spec (bs : List Nat) :
    ((decodeStream bs).2 = false ↔ IsRecordConcat bs) ∧
    ((decodeStream bs).2 = true ↔ EndsMidRecord bs) ∧
    (∀ pre suffix, IsRecordConcat pre → bs = pre ++ suffix →
      (decodeStream bs).1 = (decodeStream pre).1 ++ (decodeStream suffix).1 ∧
      (decodeStream bs).2 = (decodeStream suffix).2) := by
  refine ⟨⟨decodeStream_concat_of_ok bs, decodeStream_ok_of_concat bs⟩,
    ⟨decodeStream_endsMid_of_err bs, decodeStream_err_of_endsMid bs⟩, ?_⟩
  intro pre suffix hpre hbs
  subst hbs
  rw [decodeStream_append_complete pre hpre suffix]
  exact ⟨rfl, rfl⟩

/-- Witness for C6 at the stream `[0x41, 9, 0,0,0,7, 0xC2]`: one complete
record (year byte 9, one position 7) followed by a start byte announcing
more bytes than remain. -/
theorem decodeStream_incomplete_record_spec_witness :
    ((decodeStream [65, 9, 0, 0, 0, 7, 194]).2 = true ↔
      EndsMidRecord [65, 9, 0, 0, 0, 7, 194]) ∧
    (decodeStream [65, 9, 0, 0, 0, 7, 194]).1
        = (decodeStream [65, 9, 0, 0, 0, 7]).1 ++ (decodeStream [194]).1 ∧
    (decodeStream [65, 9, 0, 0, 0, 7, 194]).2 = (decodeStream [194]).2 :=
  ⟨(decodeStream_incomplete_record_spec [65, 9, 0, 0, 0, 7, 194]).2.1,
    ((decodeStream_incomplete_record_spec [65, 9, 0, 0, 0, 7, 194]).2.2
      [65, 9, 0, 0, 0, 7] [194]
      (by
        have h : ([65, 9, 0, 0, 0, 7] : List Nat)
            = 65 :: [9, 0, 0, 0, 7] ++ [] := by decide
        rw [h]
        exact IsRecordConcat.cons 65 [9, 0, 0, 0, 7] []
          (by decide) IsRecordConcat.nil)
      rfl)⟩

theorem flatten_chunksOf15 : ∀ l : List Nat, (chunksOf15 l).flatten = l := by
  intro l
  induction l using chunksOf15.induct with
  | case1 => rw [chunksOf15]; rfl
  | case2 a t ih =>
      rw [chunksOf15]
      simp only [List.flatten_cons, ih, List.take_append_drop]

theorem chunksOf15_length_le : ∀ l : List Nat, ∀ c ∈ chunksOf15 l,
    c.length ≤ 15 := by
  intro l
  induction l using chunksOf15.induct with
  | case1 => intro c hc; simp [chunksOf15] at hc
  | case2 a t ih =>
      intro c hc
      rw [chunksOf15] at hc
      rcases List.mem_cons.mp hc with h1 | h1
      · subst h1; simp [List.length_take]
      · exact ih c h1

theorem startByte_decode (hc hy : Bool) (n : Nat) (hn : n ≤ 15) :
    startByte hc hy n &&& 63 = n ∧
    ((startByte hc hy n &&& 128 ≠ 0) ↔ hc = true) ∧
    ((startByte hc hy n &&& 64 ≠ 0) ↔ hy = true) := by
  cases hc <;> cases hy <;>
    · unfold startByte
      interval_cases n <;> simp_all <;> decide

theorem beBytesToNat_packBE (p : Nat) (hp : p < 2 ^ 32) :
    beBytesToNat (packBE p) = p := by
  simp only [beBytesToNat, packBE, List.foldl]
  omega

theorem readPositions_packBE : ∀ chunk : List Nat,
    (∀ p ∈ chunk, p < 2 ^ 32) →
    readPositions chunk.length ((chunk.map packBE).flatten) = chunk := by
  intro chunk
  induction chunk with
  | nil => intro _; rfl
  | cons p ps ih =>
      intro hb
      simp only [List.map_cons, List.flatten_cons, List.length_cons]
      rw [readPositions]
      have h4 : (packBE p).length = 4 := rfl
      rw [← h4, List.take_left, List.drop_left]
      rw [h4] at *
      rw [beBytesToNat_packBE p (hb p (by simp)),
        ih (fun q hq => hb q (by simp [hq]))]

theorem packBE_flatten_length (c : List Nat) :
    ((c.map packBE).flatten).length = 4 * c.length := by
  induction c with
  | nil => rfl
  | cons p ps ih =>
      simp only [List.map_cons, List.flatten_cons, List.length_append,
        List.length_cons, ih]
      rw [show (packBE p).length = 4 from rfl]
      omega

theorem parseRecord_chunk (holdings_count year : Option Nat)
    (hh : ∀ h ∈ holdings_count, h ≤ 255)
    (hyb : ∀ v ∈ year, 1770 ≤ v ∧ v ≤ 2025)
    (chunk : List Nat) (hlen : chunk.length ≤ 15)
    (hb : ∀ p ∈ chunk, p < 2 ^ 32) :
    parseRecord (startByte holdings_count.isSome year.isSome chunk.length)
        ((chunkHeader holdings_count year chunk.length).tail ++
          (chunk.map packBE).flatten)
      = ⟨chunk, holdings_count, year⟩ := by
  obtain ⟨h63, h128, h64⟩ :=
    startByte_decode holdings_count.isSome year.isSome chunk.length hlen
  rcases holdings_count with _ | h <;> rcases year with _ | y <;>
    simp only [Option.isSome_none, Option.isSome_some] at h63 h128 h64
  · -- neither holdings nor year
    have e128 : startByte false false chunk.length &&& 128 = 0 := by
      have hn : ¬(startByte false false chunk.length &&& 128 ≠ 0) :=
        fun hc => absurd (h128.mp hc) (by simp)
      omega
    have e64 : startByte false false chunk.length &&& 64 = 0 := by
      have hn : ¬(startByte false false chunk.length &&& 64 ≠ 0) :=
        fun hc => absurd (h64.mp hc) (by simp)
      omega
    simp [parseRecord, chunkHeader, e128, e64, h63,
      readPositions_packBE chunk hb]
  · -- year only
    have e128 : startByte false true chunk.length &&& 128 = 0 := by
      have hn : ¬(startByte false true chunk.length &&& 128 ≠ 0) :=
        fun hc => absurd (h128.mp hc) (by simp)
      omega
    have hp64 : startByte false true chunk.length &&& 64 ≠ 0 :=
      h64.mpr trivial
    obtain ⟨hy1, hy2⟩ := hyb y (by simp)
    simp [parseRecord, chunkHeader, e128, hp64, h63,
      readPositions_packBE chunk hb]
    omega
  · -- holdings only
    have hp128 : startByte true false chunk.length &&& 128 ≠ 0 :=
      h128.mpr trivial
    have e64 : startByte true false chunk.length &&& 64 = 0 := by
      have hn : ¬(startByte true false chunk.length &&& 64 ≠ 0) :=
        fun hc => absurd (h64.mp hc) (by simp)
      omega
    have hhb := hh h (by simp)
    simp [parseRecord, chunkHeader, hp128, e64, h63,
      readPositions_packBE chunk hb]
    omega
  · -- both holdings and year
    have hp128 : startByte true true chunk.length &&& 128 ≠ 0 :=
      h128.mpr trivial
    have hp64 : startByte true true chunk.length &&& 64 ≠ 0 :=
      h64.mpr trivial
    have hhb := hh h (by simp)
    obtain ⟨hy1, hy2⟩ := hyb y (by simp)
    simp [parseRecord, chunkHeader, hp128, hp64, h63,
      readPositions_packBE chunk hb]
    constructor <;> omega

theorem chunkHeader_tail_length (holdings_count year : Option Nat)
    (n : Nat) :
    (chunkHeader holdings_count year n).tail.length
      = (if holdings_count.isSome then 1 else 0)
        + (if year.isSome then 1 else 0) := by
  rcases holdings_count with _ | h <;> rcases year with _ | y <;>
    simp [chunkHeader]

theorem recordSize_startByte (hc hy : Bool) (n : Nat) (hn : n ≤ 15) :
    recordSize (startByte hc hy n)
      = n * 4 + (if hc then 1 else 0) + (if hy then 1 else 0) := by
  obtain ⟨h63, h128, h64⟩ := startByte_decode hc hy n hn
  rw [recordSize, h63]
  cases hc <;> cases hy <;> simp_all

theorem decodeStream_encodeChunksFrom (holdings_count year : Option Nat)
    (hh : ∀ h ∈ holdings_count, h ≤ 255)
    (hyb : ∀ v ∈ year, 1770 ≤ v ∧ v ≤ 2025) :
    ∀ l : List Nat, (∀ p ∈ l, p < 2 ^ 32) →
    decodeStream (encodeChunksFrom holdings_count year l)
      = ((chunksOf15 l).map fun c =>
          (⟨c, holdings_count, year⟩ : ISBNPropsRecord), false) := by
  intro l
  induction l using chunksOf15.induct with
  | case1 =>
      intro _
      rw [encodeChunksFrom, chunksOf15]
      simp [decodeStream_nil]
  | case2 a t ih =>
      intro hb
      rw [encodeChunksFrom, chunksOf15]
      set chunk := (a :: t).take 15 with hchunk
      have hclen : chunk.length ≤ 15 := by
        rw [hchunk]; simp [List.length_take]
      have hcb : ∀ p ∈ chunk, p < 2 ^ 32 :=
        fun p hp => hb p (List.mem_of_mem_take hp)
      have hdb : ∀ p ∈ (a :: t).drop 15, p < 2 ^ 32 :=
        fun p hp => hb p (List.mem_of_mem_drop hp)
      have hbodylen :
          ((chunkHeader holdings_count year chunk.length).tail ++
            (chunk.map packBE).flatten).length
          = recordSize
              (startByte holdings_count.isSome year.isSome chunk.length) := by
        rw [List.length_append, packBE_flatten_length,
          chunkHeader_tail_length,
          recordSize_startByte holdings_count.isSome year.isSome _ hclen]
        cases holdings_count.isSome <;> cases year.isSome <;> simp <;> omega
      have hsplit :
          (chunkHeader holdings_count year chunk.length ++
              (chunk.map packBE).flatten) ++
            encodeChunksFrom holdings_count year ((a :: t).drop 15)
          = (startByte holdings_count.isSome year.isSome chunk.length ::
              ((chunkHeader holdings_count year chunk.length).tail ++
                (chunk.map packBE).flatten)) ++
            encodeChunksFrom holdings_count year ((a :: t).drop 15) := rfl
      rw [hsplit,
        decodeStream_cons_complete _ _ _ hbodylen,
        parseRecord_chunk holdings_count year hh hyb chunk hclen hcb,
        ih hdb]
      simp

/-- C1. Codec round trip: encoding a non-empty set of 32-bit positions
with optional holdings in `[0,255]` and optional year in `[1770,2025]`
(at least one present) and decoding the resulting bytes yields records of
at most 15 positions each, whose concatenated positions are the sorted
set and which all carry the original holdings and year. -/
theorem codec_round_trip (P : Finset Nat) (hP : P.Nonempty)
    (hbound : ∀ p ∈ P, p < 2 ^ 32)
    (holdings_count year : Option Nat)
    (hh : ∀ h ∈ holdings_count, h ≤ 255)
    (hyb : ∀ v ∈ year, 1770 ≤ v ∧ v ≤ 2025)
    (hpresent : holdings_count.isSome ∨ year.isSome) :
    ∃ bs, createBytesFromPositions P holdings_count year = some bs ∧
      (decodeStream bs).2 = false ∧
      ((decodeStream bs).1.map ISBNPropsRecord.isbn_positions).flatten
        = P.sort (· ≤ ·) ∧
      ∀ r ∈ (decodeStream bs).1,
        r.isbn_positions.length ≤ 15 ∧
        r.holdings_count = holdings_count ∧ r.year = year := by
  have hsortb : ∀ p ∈ P.sort (· ≤ ·), p < 2 ^ 32 := by
    intro p hp
    exact hbound p ((Finset.mem_sort _).mp hp)
  have hLlen : 0 < (P.sort (· ≤ ·)).length := by
    rw [Finset.length_sort]
    exact Finset.card_pos.mpr hP
  have hflag : (holdings_count.isSome || year.isSome) = true := by
    rcases hpresent with h | h <;> simp [h]
  refine ⟨encodeChunksFrom holdings_count year (P.sort (· ≤ ·)), ?_, ?_, ?_, ?_⟩
  · rw [createBytesFromPositions]
    simp only [hLlen, hflag, and_true, if_true, if_pos]
  · rw [decodeStream_encodeChunksFrom holdings_count year hh hyb _ hsortb]
  · rw [decodeStream_encodeChunksFrom holdings_count year hh hyb _ hsortb]
    simp only [List.map_map]
    have : (ISBNPropsRecord.isbn_positions ∘ fun c =>
        (⟨c, holdings_count, year⟩ : ISBNPropsRecord)) = id := rfl
    rw [this, List.map_id, flatten_chunksOf15]
  · rw [decodeStream_encodeChunksFrom holdings_count year hh hyb _ hsortb]
    intro r hr
    simp only [List.mem_map] at hr
    obtain ⟨c, hc, hrc⟩ := hr
    subst hrc
    exact ⟨chunksOf15_length_le _ c hc, rfl, rfl⟩

/-- Witness for C1 at `P = {1, 2}`, holdings 5, year 2000. -/
theorem codec_round_trip_witness :
    ({1, 2} : Finset Nat).Nonempty ∧
    (∀ p ∈ ({1, 2} : Finset Nat), p < 2 ^ 32) ∧
    (∃ bs,
      createBytesFromPositions {1, 2} (some 5) (some 2000) = some bs ∧
      (decodeStream bs).2 = false ∧
      ((decodeStream bs).1.map ISBNPropsRecord.isbn_positions).flatten
        = ({1, 2} : Finset Nat).sort (· ≤ ·) ∧
      ∀ r ∈ (decodeStream bs).1,
        r.isbn_positions.length ≤ 15 ∧
        r.holdings_count = some 5 ∧ r.year = some 2000) :=
  ⟨⟨1, by decide⟩, by decide,
    codec_round_trip {1, 2} ⟨1, by decide⟩ (by decide) (some 5) (some 2000)
      (by intro h hmem; simp at hmem; omega)
      (by intro v hmem; simp at hmem; omega)
      (Or.inl rfl)⟩

/-! ## Theorems: ISBN string utilities (`verify_isbn`, `_get_isbn_position`, `filter_invalid_isbns`) -/

/-- C2 counterexample. The ISBN string `"9800000000007"` passes the
checksum, survives `filter_invalid_isbns`, and converts to the raw
position `2 * 10^9`, which lies in `[0, 2^32)` but in none of the three
intervals the claim allows to be rewritten — yet the flush stage still
subtracts `10^9` from it. -/
theorem mis_prefix_rewrite_counterexample :
    verify_isbn ['9','8','0','0','0','0','0','0','0','0','0','0','7']
        = true ∧
    filter_invalid_isbns
        {['9','8','0','0','0','0','0','0','0','0','0','0','7']}
      = {['9','8','0','0','0','0','0','0','0','0','0','0','7']} ∧
    get_isbn_position ['9','8','0','0','0','0','0','0','0','0','0','0','7']
      = some 2000000000 ∧
    (2000000000 : Nat) < 2 ^ 32 ∧
    ¬((1000000000 ≤ 2000000000 ∧ 2000000000 < 1100000000) ∨
      (1140000000 ≤ 2000000000 ∧ 2000000000 < 1800000000) ∨
      (1900000000 ≤ 2000000000 ∧ (2000000000 : Nat) < 2000000000)) ∧
    createPositions {['9','8','0','0','0','0','0','0','0','0','0','0','7']}
      = {1000000000} := by
  refine ⟨by decide, by decide, by decide, by decide, by decide, by decide⟩

/-- C2 amended. The flush-stage rewrite subtracts `10^9` exactly when the
position lies in
`[10^9, 1.1e9) ∪ [1.14e9, 1.8e9) ∪ [1.9e9, 2^32)` — the last band runs
to `2^32`, not to `2e9` — and keeps every other position in `[0, 2^32)`
unchanged. -/
theorem mis_prefix_rewrite_amended (p : Nat) (hp : p < 2 ^ 32) :
    (((1000000000 ≤ p ∧ p < 1100000000) ∨
      (1140000000 ≤ p ∧ p < 1800000000) ∨
      (1900000000 ≤ p ∧ p < 2 ^ 32)) →
        fixIsbnPosition p = p - 1000000000) ∧
    (¬((1000000000 ≤ p ∧ p < 1100000000) ∨
      (1140000000 ≤ p ∧ p < 1800000000) ∨
      (1900000000 ≤ p ∧ p < 2 ^ 32)) →
        fixIsbnPosition p = p) := by
  rw [fixIsbnPosition]
  split_ifs with h
  · constructor <;> intro hin <;> omega
  · constructor <;> intro hin <;> omega

/-- Witness for the amended C2 at `p = 1.5e9` (rewritten) packaged with
the bound hypothesis. -/
theorem mis_prefix_rewrite_amended_witness :
    (1500000000 : Nat) < 2 ^ 32 ∧
    ((((1000000000 ≤ 1500000000 ∧ 1500000000 < 1100000000) ∨
      (1140000000 ≤ 1500000000 ∧ 1500000000 < 1800000000) ∨
      (1900000000 ≤ 1500000000 ∧ (1500000000 : Nat) < 2 ^ 32)) →
        fixIsbnPosition 1500000000 = 1500000000 - 1000000000) ∧
    (¬((1000000000 ≤ 1500000000 ∧ 1500000000 < 1100000000) ∨
      (1140000000 ≤ 1500000000 ∧ 1500000000 < 1800000000) ∨
      (1900000000 ≤ 1500000000 ∧ (1500000000 : Nat) < 2 ^ 32)) →
        fixIsbnPosition 1500000000 = 1500000000)) :=
  ⟨by decide, mis_prefix_rewrite_amended 1500000000 (by decide)⟩

/-! ## Theorems: Year extraction (`processor_most_likely_year.extract_most_likely_year`) -/

theorem try4_length (s : List Char) (y : Nat) (r : List Char)
    (h : try4 s = some (y, r)) : r.length + 4 ≤ s.length := by
  rcases s with _ | ⟨d1, _ | ⟨d2, _ | ⟨d3, _ | ⟨d4, t⟩⟩⟩⟩
  · exact Option.noConfusion h
  · exact Option.noConfusion h
  · exact Option.noConfusion h
  · exact Option.noConfusion h
  · simp only [try4] at h
    split_ifs at h with h1
    · rcases t with _ | ⟨e, ts⟩
      · simp only [Option.some.injEq, Prod.mk.injEq] at h
        rw [← h.2]
        simp
      · by_cases h2 : e.isDigit
        · simp [h2] at h
        · simp only [h2, if_false, Bool.false_eq_true,
            Option.some.injEq, Prod.mk.injEq] at h
          rw [← h.2]
          simp only [List.length_cons]
          omega

theorem innerRun_boundedRun (s : List Char) (y : Nat)
    (h : InnerRun s y) : IsBoundedRun s y := by
  obtain ⟨pre, d1, d2, d3, d4, post, hs, h1, h2, h3, h4, hpre, hpost, hy⟩ := h
  exact ⟨pre, d1, d2, d3, d4, post, hs, h1, h2, h3, h4, Or.inr hpre, hpost, hy⟩

theorem innerRun_lift (l t : List Char) (y : Nat)
    (h : InnerRun t y) : InnerRun (l ++ t) y := by
  obtain ⟨pre, d1, d2, d3, d4, post, hs, h1, h2, h3, h4,
    ⟨c, hc, hcd⟩, hpost, hy⟩ := h
  refine ⟨l ++ pre, d1, d2, d3, d4, post, ?_, h1, h2, h3, h4,
    ⟨c, ?_, hcd⟩, hpost, hy⟩
  · rw [hs, List.append_assoc]
  · have hne : pre ≠ [] := by
      intro hnil
      rw [hnil] at hc
      exact Option.noConfusion hc
    rw [List.getLast?_append_of_ne_nil _ hne]
    exact hc

theorem try4_some (s : List Char) (y : Nat) (r : List Char)
    (h : try4 s = some (y, r)) :
    ∃ d1 d2 d3 d4 post, s = d1 :: d2 :: d3 :: d4 :: post ∧
      d1.isDigit ∧ d2.isDigit ∧ d3.isDigit ∧ d4.isDigit ∧
      y = charDigit d1 * 1000 + charDigit d2 * 100 +
        charDigit d3 * 10 + charDigit d4 ∧
      ((post = [] ∧ r = []) ∨
        ∃ e ts, post = e :: ts ∧ e.isDigit = false ∧ r = ts) := by
  rcases s with _ | ⟨d1, _ | ⟨d2, _ | ⟨d3, _ | ⟨d4, t⟩⟩⟩⟩
  · exact Option.noConfusion h
  · exact Option.noConfusion h
  · exact Option.noConfusion h
  · exact Option.noConfusion h
  · simp only [try4] at h
    split_ifs at h with h1
    · obtain ⟨hd1, hd2, hd3, hd4⟩ := h1
      rcases t with _ | ⟨e, ts⟩
      · simp only [Option.some.injEq, Prod.mk.injEq] at h
        exact ⟨d1, d2, d3, d4, [], rfl, hd1, hd2, hd3, hd4, h.1.symm,
          Or.inl ⟨rfl, h.2.symm⟩⟩
      · by_cases h2 : e.isDigit
        · simp [h2] at h
        · simp only [h2, if_false, Bool.false_eq_true,
            Option.some.injEq, Prod.mk.injEq] at h
          exact ⟨d1, d2, d3, d4, e :: ts, rfl, hd1, hd2, hd3, hd4,
            h.1.symm, Or.inr ⟨e, ts, rfl, by simp [h2], h.2.symm⟩⟩

theorem scanFrom_sound : ∀ s : List Char, ∀ y ∈ scanFrom s,
    InnerRun s y := by
  intro s
  induction s using scanFrom.induct with
  | case1 => intro y hy; simp [scanFrom] at hy
  | case2 c rest hdig ih =>
      intro y hy
      rw [scanFrom, if_pos hdig] at hy
      exact innerRun_lift [c] rest y (ih y hy)
  | case3 c rest hdig y0 rest' htry ih =>
      intro y hy
      rw [scanFrom, if_neg hdig, htry] at hy
      obtain ⟨d1, d2, d3, d4, post, hrest, h1, h2, h3, h4, hval, hpost⟩ :=
        try4_some rest y0 rest' htry
      rcases List.mem_cons.mp hy with hyv | hytail
      · -- the match at this position
        subst hyv
        refine ⟨[c], d1, d2, d3, d4, post, ?_, h1, h2, h3, h4,
          ⟨c, rfl, by simpa using hdig⟩, ?_, hval⟩
        · rw [hrest]; rfl
        · rcases hpost with ⟨hp, _⟩ | ⟨e, ts, hp, he, _⟩
          · rw [hp]; exact Or.inl rfl
          · rw [hp]; exact Or.inr ⟨e, rfl, he⟩
      · -- a later match inside the remainder
        rcases hpost with ⟨hp, hr⟩ | ⟨e, ts, hp, _, hr⟩
        · rw [hr] at hytail
          simp [scanFrom] at hytail
        · have hin := ih y hytail
          have hlift := innerRun_lift (c :: d1 :: d2 :: d3 :: d4 :: [e])
            rest' y hin
          have heq : (c :: d1 :: d2 :: d3 :: d4 :: [e]) ++ rest'
              = c :: rest := by
            rw [hrest, hp, hr]
            rfl
          rwa [heq] at hlift
  | case4 c rest hdig htry ih =>
      intro y hy
      rw [scanFrom, if_neg hdig, htry] at hy
      exact innerRun_lift [c] rest y (ih y hy)

theorem yearsIn_sound (s : List Char) (y : Nat) (hy : y ∈ yearsIn s) :
    IsBoundedRun s y := by
  rw [yearsIn] at hy
  cases htry : try4 s with
  | none =>
      rw [htry] at hy
      exact innerRun_boundedRun s y (scanFrom_sound s y hy)
  | some p =>
      obtain ⟨y0, rest⟩ := p
      rw [htry] at hy
      obtain ⟨d1, d2, d3, d4, post, hs, h1, h2, h3, h4, hval, hpost⟩ :=
        try4_some s y0 rest htry
      rcases List.mem_cons.mp hy with hyv | hytail
      · subst hyv
        refine ⟨[], d1, d2, d3, d4, post, hs, h1, h2, h3, h4,
          Or.inl rfl, ?_, hval⟩
        rcases hpost with ⟨hp, _⟩ | ⟨e, ts, hp, he, _⟩
        · rw [hp]; exact Or.inl rfl
        · rw [hp]; exact Or.inr ⟨e, rfl, he⟩
      · rcases hpost with ⟨hp, hr⟩ | ⟨e, ts, hp, _, hr⟩
        · rw [hr] at hytail
          simp [scanFrom] at hytail
        · have hin := scanFrom_sound rest y hytail
          have hlift := innerRun_lift (d1 :: d2 :: d3 :: d4 :: [e]) rest y hin
          have heq : (d1 :: d2 :: d3 :: d4 :: [e]) ++ rest = s := by
            rw [hs, hp, hr]
            rfl
          rw [heq] at hlift
          exact innerRun_boundedRun s y hlift

/-- C3 counterexample. In `"1966-1967"` the run `1967` is a 4-digit run
bounded by the `'-'` and the string end and lies in `[1450, 2025]`, yet
the candidate list only holds `1966`: the non-overlapping scan consumed
the shared boundary `'-'` as the first match's trailing character. -/
theorem year_candidates_counterexample :
    extractYearsList [['1','9','6','6','-','1','9','6','7']] = [1966] ∧
    IsBoundedRun ['1','9','6','6','-','1','9','6','7'] 1967 ∧
    1450 ≤ 1967 ∧ 1967 ≤ 2025 ∧
    1967 ∉ extractYearsList [['1','9','6','6','-','1','9','6','7']] := by
  have heval : extractYearsList [['1','9','6','6','-','1','9','6','7']]
      = [1966] := by
    simp +decide [extractYearsList, yearsIn, try4, scanFrom, charDigit]
  refine ⟨heval,
    ⟨['1','9','6','6','-'], '1', '9', '6', '7', [], by decide, by decide,
      by decide, by decide, by decide,
      Or.inr ⟨'-', by decide, by decide⟩, Or.inl (by decide), by decide⟩,
    by decide, by decide, by rw [heval]; decide⟩

/-- C3 amended. Every candidate that `extract_most_likely_year` counts is
a 4-digit run bounded on both sides by a non-digit or a string end with
value in `[1450, 2025]`; but the candidates are only the matches of a
left-to-right non-overlapping scan in which each match consumes its
trailing boundary character, so a bounded run whose left boundary
character was consumed by the preceding match is not retained. -/
theorem year_candidates_amended (s : List Char) (y : Nat)
    (hy : y ∈ extractYearsList [s]) :
    IsBoundedRun s y ∧ 1450 ≤ y ∧ y ≤ 2025 := by
  rw [extractYearsList] at hy
  simp only [List.map_cons, List.map_nil, List.flatten_cons,
    List.flatten_nil, List.append_nil, List.mem_filter,
    decide_eq_true_eq] at hy
  exact ⟨yearsIn_sound s y hy.1, hy.2⟩

/-- Witness for the amended C3 at the string `"a1984"`. -/
theorem year_candidates_amended_witness :
    1984 ∈ extractYearsList [['a','1','9','8','4']] ∧
    (IsBoundedRun ['a','1','9','8','4'] 1984 ∧ 1450 ≤ 1984 ∧ 1984 ≤ 2025) := by
  have heval : extractYearsList [['a','1','9','8','4']] = [1984] := by
    simp +decide [extractYearsList, yearsIn, try4, scanFrom, charDigit]
  have hmem : 1984 ∈ extractYearsList [['a','1','9','8','4']] := by
    rw [heval]; decide
  exact ⟨hmem, year_candidates_amended ['a','1','9','8','4'] 1984 hmem⟩

/-! ## Theorems: ISBN string → full-canvas pixel (`common.get_pos`) -/

theorem getPosAux_row (d : Nat) (rest : List Nat) (n : Int) (x y : ℚ) :
    getPosAux (d :: rest) n true x y
      = getPosAux rest n false x (y + (d : ℚ) * (10 : ℚ) ^ n) := by
  rw [getPosAux]
  simp

theorem getPosAux_col4 (d : Nat) (rest : List Nat) (x y : ℚ) :
    getPosAux (d :: rest) 4 false x y
      = getPosAux rest 3 true
          ((x + (d : ℚ) * 10000)
            - 50000 * (⌊(x + (d : ℚ) * 10000) / 50000⌋ : ℤ))
          (2 * y + (⌊(x + (d : ℚ) * 10000) / 50000⌋ : ℤ)) := by
  rw [getPosAux]
  norm_num

theorem getPosAux_col (d : Nat) (rest : List Nat) (n : Int) (hn : n ≠ 4)
    (x y : ℚ) :
    getPosAux (d :: rest) n false x y
      = getPosAux rest (n - 1) true (x + (d : ℚ) * (10 : ℚ) ^ n) y := by
  rw [getPosAux]
  simp [hn]

/-- Closed form of the `get_pos` loop on exactly 13 digits: row digits
feed `y`, column digits feed `x`, the fold after the second digit moves
the overflowing column block into `y`, and the last three digits carry
fractional weights because the exponent has gone negative. -/
theorem getPosAux_thirteen
    (d0 d1 d2 d3 d4 d5 d6 d7 d8 d9 d10 d11 d12 : Nat) :
    getPosAux [d0,d1,d2,d3,d4,d5,d6,d7,d8,d9,d10,d11,d12] 4 true 0 0
      = (((d1 : ℚ) * 10000 - 50000 * (⌊(d1 : ℚ) * 10000 / 50000⌋ : ℤ))
           + (d3 : ℚ) * 1000 + (d5 : ℚ) * 100 + (d7 : ℚ) * 10 + (d9 : ℚ)
           + (d11 : ℚ) / 10,
         2 * ((d0 : ℚ) * 10000) + (⌊(d1 : ℚ) * 10000 / 50000⌋ : ℤ)
           + (d2 : ℚ) * 1000 + (d4 : ℚ) * 100 + (d6 : ℚ) * 10 + (d8 : ℚ)
           + (d10 : ℚ) / 10 + (d12 : ℚ) / 100) := by
  rw [getPosAux_row, getPosAux_col4, getPosAux_row,
    getPosAux_col _ _ 3 (by norm_num), getPosAux_row]
  norm_num
  rw [getPosAux_col _ _ 2 (by norm_num), getPosAux_row]
  norm_num
  rw [getPosAux_col _ _ 1 (by norm_num), getPosAux_row]
  norm_num
  rw [getPosAux_col _ _ 0 (by norm_num), getPosAux_row]
  norm_num
  rw [getPosAux_col _ _ (-1) (by norm_num), getPosAux_row, getPosAux]
  norm_num
  constructor <;> ring_nf

theorem charDigit_le_nine (c : Char) (h : c.isDigit = true) :
    charDigit c ≤ 9 := by
  simp only [Char.isDigit, Bool.and_eq_true, decide_eq_true_eq] at h
  obtain ⟨h1, h2⟩ := h
  rw [charDigit]
  have h3 : c.toNat ≤ 57 := h2
  have h0 : '0'.toNat = 48 := rfl
  rw [h0]
  omega

/-- C9 counterexample. `get_pos` on the 13 digits of the real ISBN-13
`9780000000000` gives `y = 188001 ≥ 40000`: the first digit `9` lands
the point far below the 40,000-pixel canvas. -/
theorem canvas_bounds_counterexample :
    (['9','7','8','0','0','0','0','0','0','0','0','0','0']
        : List Char).length = 13 ∧
    (∀ c ∈ (['9','7','8','0','0','0','0','0','0','0','0','0','0']
        : List Char), c.isDigit = true) ∧
    (get_pos ['9','7','8','0','0','0','0','0','0','0','0','0','0']).2
      = 188001 ∧
    ¬((get_pos ['9','7','8','0','0','0','0','0','0','0','0','0','0']).2
      < 40000) := by
  have hmap : (['9','7','8','0','0','0','0','0','0','0','0','0','0']
      : List Char).map charDigit = [9,7,8,0,0,0,0,0,0,0,0,0,0] := rfl
  have heval :
      (get_pos ['9','7','8','0','0','0','0','0','0','0','0','0','0']).2
        = 188001 := by
    rw [get_pos, hmap, getPosAux_thirteen]
    have hf : (⌊((7 : Nat) : ℚ) * 10000 / 50000⌋ : ℤ) = 1 := by
      push_cast
      norm_num [Int.floor_eq_iff]
    rw [hf]
    norm_num
  refine ⟨by decide, by decide, heval, ?_⟩
  rw [heval]
  norm_num

theorem floor_digit_scaled (n : Nat) (hn : n ≤ 9) :
    (⌊((n : ℚ)) * 10000 / 50000⌋ : ℤ) = if n ≤ 4 then 0 else 1 := by
  interval_cases n <;> norm_num [Int.floor_eq_iff]

/-- C9 amended. For a string of 13 decimal digits whose leading digit is
0 or 1 (the normalized `978`/`979` encoding), `get_pos` lands inside the
50,000-by-40,000 canvas: `0 ≤ x < 50000` and `0 ≤ y < 40000`. A leading
digit of 2 or more (for instance the literal `978…` ISBN of the
counterexample) leaves the canvas. -/
theorem canvas_bounds_amended (s : List Char) (hlen : s.length = 13)
    (hdig : ∀ c ∈ s, c.isDigit = true)
    (hlead : charDigit (s.headD '0') ≤ 1) :
    0 ≤ (get_pos s).1 ∧ (get_pos s).1 < 50000 ∧
    0 ≤ (get_pos s).2 ∧ (get_pos s).2 < 40000 := by
  rcases s with _ | ⟨c0, s⟩
  · simp at hlen
  rcases s with _ | ⟨c1, s⟩
  · simp at hlen
  rcases s with _ | ⟨c2, s⟩
  · simp at hlen
  rcases s with _ | ⟨c3, s⟩
  · simp at hlen
  rcases s with _ | ⟨c4, s⟩
  · simp at hlen
  rcases s with _ | ⟨c5, s⟩
  · simp at hlen
  rcases s with _ | ⟨c6, s⟩
  · simp at hlen
  rcases s with _ | ⟨c7, s⟩
  · simp at hlen
  rcases s with _ | ⟨c8, s⟩
  · simp at hlen
  rcases s with _ | ⟨c9, s⟩
  · simp at hlen
  rcases s with _ | ⟨c10, s⟩
  · simp at hlen
  rcases s with _ | ⟨c11, s⟩
  · simp at hlen
  rcases s with _ | ⟨c12, s⟩
  · simp at hlen
  rcases s with _ | ⟨c13, s⟩
  swap
  · simp only [List.length_cons] at hlen
    omega
  have h0 : charDigit c0 ≤ 1 := by simpa using hlead
  have h1 : charDigit c1 ≤ 9 := charDigit_le_nine c1 (hdig c1 (by simp))
  have h2 : charDigit c2 ≤ 9 := charDigit_le_nine c2 (hdig c2 (by simp))
  have h3 : charDigit c3 ≤ 9 := charDigit_le_nine c3 (hdig c3 (by simp))
  have h4 : charDigit c4 ≤ 9 := charDigit_le_nine c4 (hdig c4 (by simp))
  have h5 : charDigit c5 ≤ 9 := charDigit_le_nine c5 (hdig c5 (by simp))
  have h6 : charDigit c6 ≤ 9 := charDigit_le_nine c6 (hdig c6 (by simp))
  have h7 : charDigit c7 ≤ 9 := charDigit_le_nine c7 (hdig c7 (by simp))
  have h8 : charDigit c8 ≤ 9 := charDigit_le_nine c8 (hdig c8 (by simp))
  have h9 : charDigit c9 ≤ 9 := charDigit_le_nine c9 (hdig c9 (by simp))
  have h10 : charDigit c10 ≤ 9 := charDigit_le_nine c10 (hdig c10 (by simp))
  have h11 : charDigit c11 ≤ 9 := charDigit_le_nine c11 (hdig c11 (by simp))
  have h12 : charDigit c12 ≤ 9 := charDigit_le_nine c12 (hdig c12 (by simp))
  simp only [get_pos, List.map_cons, List.map_nil]
  rw [getPosAux_thirteen, floor_digit_scaled _ h1]
  have q0 : ((charDigit c0 : ℚ)) ≤ 1 := by exact_mod_cast h0
  have q1 : ((charDigit c1 : ℚ)) ≤ 9 := by exact_mod_cast h1
  have q2 : ((charDigit c2 : ℚ)) ≤ 9 := by exact_mod_cast h2
  have q3 : ((charDigit c3 : ℚ)) ≤ 9 := by exact_mod_cast h3
  have q4 : ((charDigit c4 : ℚ)) ≤ 9 := by exact_mod_cast h4
  have q5 : ((charDigit c5 : ℚ)) ≤ 9 := by exact_mod_cast h5
  have q6 : ((charDigit c6 : ℚ)) ≤ 9 := by exact_mod_cast h6
  have q7 : ((charDigit c7 : ℚ)) ≤ 9 := by exact_mod_cast h7
  have q8 : ((charDigit c8 : ℚ)) ≤ 9 := by exact_mod_cast h8
  have q9 : ((charDigit c9 : ℚ)) ≤ 9 := by exact_mod_cast h9
  have q10 : ((charDigit c10 : ℚ)) ≤ 9 := by exact_mod_cast h10
  have q11 : ((charDigit c11 : ℚ)) ≤ 9 := by exact_mod_cast h11
  have q12 : ((charDigit c12 : ℚ)) ≤ 9 := by exact_mod_cast h12
  have p0 : (0 : ℚ) ≤ (charDigit c0 : ℚ) := Nat.cast_nonneg _
  have p1 : (0 : ℚ) ≤ (charDigit c1 : ℚ) := Nat.cast_nonneg _
  have p2 : (0 : ℚ) ≤ (charDigit c2 : ℚ) := Nat.cast_nonneg _
  have p3 : (0 : ℚ) ≤ (charDigit c3 : ℚ) := Nat.cast_nonneg _
  have p4 : (0 : ℚ) ≤ (charDigit c4 : ℚ) := Nat.cast_nonneg _
  have p5 : (0 : ℚ) ≤ (charDigit c5 : ℚ) := Nat.cast_nonneg _
  have p6 : (0 : ℚ) ≤ (charDigit c6 : ℚ) := Nat.cast_nonneg _
  have p7 : (0 : ℚ) ≤ (charDigit c7 : ℚ) := Nat.cast_nonneg _
  have p8 : (0 : ℚ) ≤ (charDigit c8 : ℚ) := Nat.cast_nonneg _
  have p9 : (0 : ℚ) ≤ (charDigit c9 : ℚ) := Nat.cast_nonneg _
  have p10 : (0 : ℚ) ≤ (charDigit c10 : ℚ) := Nat.cast_nonneg _
  have p11 : (0 : ℚ) ≤ (charDigit c11 : ℚ) := Nat.cast_nonneg _
  have p12 : (0 : ℚ) ≤ (charDigit c12 : ℚ) := Nat.cast_nonneg _
  by_cases hc : charDigit c1 ≤ 4
  · have qc : ((charDigit c1 : ℚ)) ≤ 4 := by exact_mod_cast hc
    simp only [hc, if_true, Int.cast_zero]
    refine ⟨by linarith, by linarith, by linarith, by linarith⟩
  · have qc : (5 : ℚ) ≤ (charDigit c1 : ℚ) := by
      have : 5 ≤ charDigit c1 := by omega
      exact_mod_cast this
    simp only [hc, if_false, Int.cast_one]
    refine ⟨by linarith, by linarith, by linarith, by linarith⟩

/-- Witness for the amended C9 at the digit string `"1234567890123"`. -/
theorem canvas_bounds_amended_witness :
    ((['1','2','3','4','5','6','7','8','9','0','1','2','3']
        : List Char).length = 13 ∧
      (∀ c ∈ (['1','2','3','4','5','6','7','8','9','0','1','2','3']
        : List Char), c.isDigit = true) ∧
      charDigit ((['1','2','3','4','5','6','7','8','9','0','1','2','3']
        : List Char).headD '0') ≤ 1) ∧
    (0 ≤ (get_pos ['1','2','3','4','5','6','7','8','9','0','1','2','3']).1 ∧
      (get_pos ['1','2','3','4','5','6','7','8','9','0','1','2','3']).1
        < 50000 ∧
      0 ≤ (get_pos ['1','2','3','4','5','6','7','8','9','0','1','2','3']).2 ∧
      (get_pos ['1','2','3','4','5','6','7','8','9','0','1','2','3']).2
        < 40000) :=
  ⟨⟨by decide, by decide, by decide⟩,
    canvas_bounds_amended ['1','2','3','4','5','6','7','8','9','0','1','2','3']
      (by decide) (by decide) (by decide)⟩

/-! ## Theorems: Filter idempotence (`isbn_filter.filter_invalid_isbns`) -/

theorem mem_isbn10sOf {S : Finset (List Char)} {i : List Char} :
    i ∈ isbn10sOf S ↔ i ∈ S ∧ i.length = 10 := Finset.mem_filter

theorem mem_validIsbn13sOf {S : Finset (List Char)} {i : List Char} :
    i ∈ validIsbn13sOf S ↔ i ∈ S ∧ i.length = 13 ∧
      ∃ b ∈ basesOf S, ('9' :: '7' :: '8' :: b).isPrefixOf i = true := Finset.mem_filter

theorem mem_remainingOf {S : Finset (List Char)} {i : List Char} :
    i ∈ remainingOf S ↔ i ∈ S ∧ i.length = 13 ∧
      i ∉ validIsbn13sOf S ∧
      ¬∃ b ∈ basesOf S, b.isPrefixOf i = true := Finset.mem_filter

theorem mem_isbns978Of {S : Finset (List Char)} {i : List Char} :
    i ∈ isbns978Of S ↔ i ∈ remainingOf S ∧
      ['9', '7', '8'].isPrefixOf i = true := Finset.mem_filter

theorem mem_remaining2Of {S : Finset (List Char)} {i : List Char} :
    i ∈ remaining2Of S ↔ i ∈ remainingOf S ∧
      ¬∃ b ∈ bases2Of S, b.isPrefixOf i = true := Finset.mem_filter

theorem mem_isbns979Of {S : Finset (List Char)} {i : List Char} :
    i ∈ isbns979Of S ↔ i ∈ remaining2Of S ∧ i ∉ isbns978Of S ∧
      ¬∃ b ∈ bases2Of S, ('9' :: '7' :: '9' :: b).isPrefixOf i = true := Finset.mem_filter

theorem mem_filter_invalid {S : Finset (List Char)} {i : List Char} :
    i ∈ filter_invalid_isbns S ↔
      i ∈ isbn10sOf S ∨ i ∈ validIsbn13sOf S ∨ i ∈ isbns978Of S ∨
      i ∈ isbns979Of S := by
  rw [filter_invalid_isbns]
  simp [Finset.mem_union, or_assoc]

theorem filter_invalid_subset (S : Finset (List Char)) :
    filter_invalid_isbns S ⊆ S := by
  intro i hi
  rcases mem_filter_invalid.mp hi with h | h | h | h
  · exact (mem_isbn10sOf.mp h).1
  · exact (mem_validIsbn13sOf.mp h).1
  · exact (mem_remainingOf.mp (mem_isbns978Of.mp h).1).1
  · exact (mem_remainingOf.mp
      (mem_remaining2Of.mp (mem_isbns979Of.mp h).1).1).1

theorem length_of_mem_valid {S : Finset (List Char)} {i : List Char}
    (h : i ∈ validIsbn13sOf S) : i.length = 13 :=
  (mem_validIsbn13sOf.mp h).2.1

theorem length_of_mem_remaining {S : Finset (List Char)} {i : List Char}
    (h : i ∈ remainingOf S) : i.length = 13 :=
  (mem_remainingOf.mp h).2.1

theorem isbn10sOf_filter (S : Finset (List Char)) :
    isbn10sOf (filter_invalid_isbns S) = isbn10sOf S := by
  ext i
  rw [mem_isbn10sOf, mem_isbn10sOf]
  constructor
  · rintro ⟨hT, hlen⟩
    exact ⟨filter_invalid_subset S hT, hlen⟩
  · rintro ⟨hS, hlen⟩
    exact ⟨mem_filter_invalid.mpr (Or.inl (mem_isbn10sOf.mpr ⟨hS, hlen⟩)),
      hlen⟩

theorem basesOf_filter (S : Finset (List Char)) :
    basesOf (filter_invalid_isbns S) = basesOf S := by
  rw [basesOf, basesOf, isbn10sOf_filter]

theorem validIsbn13sOf_filter (S : Finset (List Char)) :
    validIsbn13sOf (filter_invalid_isbns S) = validIsbn13sOf S := by
  ext i
  rw [mem_validIsbn13sOf, mem_validIsbn13sOf, basesOf_filter]
  constructor
  · rintro ⟨hT, hlen, hex⟩
    exact ⟨filter_invalid_subset S hT, hlen, hex⟩
  · rintro ⟨hS, hlen, hex⟩
    exact ⟨mem_filter_invalid.mpr
      (Or.inr (Or.inl (mem_validIsbn13sOf.mpr ⟨hS, hlen, hex⟩))), hlen, hex⟩

theorem remainingOf_filter (S : Finset (List Char)) :
    remainingOf (filter_invalid_isbns S)
      = isbns978Of S ∪ isbns979Of S := by
  ext i
  rw [mem_remainingOf, basesOf_filter, validIsbn13sOf_filter,
    Finset.mem_union]
  constructor
  · rintro ⟨hT, hlen, hnv, hnb⟩
    rcases mem_filter_invalid.mp hT with h | h | h | h
    · have := (mem_isbn10sOf.mp h).2
      omega
    · exact absurd h hnv
    · exact Or.inl h
    · exact Or.inr h
  · rintro (h | h)
    · obtain ⟨hS, hlen, hnv, hnb⟩ :=
        mem_remainingOf.mp (mem_isbns978Of.mp h).1
      exact ⟨mem_filter_invalid.mpr (Or.inr (Or.inr (Or.inl h))),
        hlen, hnv, hnb⟩
    · obtain ⟨hS, hlen, hnv, hnb⟩ := mem_remainingOf.mp
        (mem_remaining2Of.mp (mem_isbns979Of.mp h).1).1
      exact ⟨mem_filter_invalid.mpr (Or.inr (Or.inr (Or.inr h))),
        hlen, hnv, hnb⟩

theorem isbns978Of_filter (S : Finset (List Char)) :
    isbns978Of (filter_invalid_isbns S) = isbns978Of S := by
  ext i
  rw [mem_isbns978Of, remainingOf_filter, Finset.mem_union]
  constructor
  · rintro ⟨hEN, hpfx⟩
    rcases hEN with h | h
    · exact h
    · exfalso
      have hR := (mem_remaining2Of.mp (mem_isbns979Of.mp h).1).1
      exact (mem_isbns979Of.mp h).2.1 (mem_isbns978Of.mpr ⟨hR, hpfx⟩)
  · intro h
    exact ⟨Or.inl h, (mem_isbns978Of.mp h).2⟩

theorem bases2Of_filter (S : Finset (List Char)) :
    bases2Of (filter_invalid_isbns S) = bases2Of S := by
  rw [bases2Of, bases2Of, basesOf_filter, isbns978Of_filter]

theorem isbns979Of_filter (S : Finset (List Char)) :
    isbns979Of (filter_invalid_isbns S) = isbns979Of S := by
  ext i
  rw [mem_isbns979Of, mem_remaining2Of, remainingOf_filter,
    bases2Of_filter, isbns978Of_filter, Finset.mem_union]
  constructor
  · rintro ⟨⟨hEN, hnb2⟩, hnE, hn979⟩
    rcases hEN with h | h
    · exact absurd h hnE
    · exact h
  · intro h
    obtain ⟨hR2, hnE, hn979⟩ := mem_isbns979Of.mp h
    obtain ⟨hR, hnb2⟩ := mem_remaining2Of.mp hR2
    exact ⟨⟨Or.inr h, hnb2⟩, hnE, hn979⟩

/-- C8. Filter idempotence: applying `filter_invalid_isbns` to its own
output changes nothing — every stage recomputes to the same set because
the output keeps exactly the ISBN-10s, the valid 13s, the kept `978`s
and the kept `979`s, and the bases derived from them are unchanged. -/
theorem filter_invalid_isbns_idem (S : Finset (List Char)) :
    filter_invalid_isbns (filter_invalid_isbns S)
      = filter_invalid_isbns S := by
  conv_lhs => rw [filter_invalid_isbns]
  rw [isbn10sOf_filter, validIsbn13sOf_filter, isbns978Of_filter,
    isbns979Of_filter, filter_invalid_isbns]

/-! ## Theorems: Book aggregator (`processor_data_handler.DataHandler`) -/

theorem mergeHoldings_comm (h : Option Nat) (a b : Nat) :
    mergeHoldings (mergeHoldings h a) b
      = mergeHoldings (mergeHoldings h b) a := by
  cases h <;> simp [mergeHoldings] <;> omega

theorem applyHoldings_comm (h : Option Nat) (v w : Option Nat) :
    applyHoldings (applyHoldings h v) w
      = applyHoldings (applyHoldings h w) v := by
  cases v <;> cases w <;> simp [applyHoldings]
  exact mergeHoldings_comm h _ _

theorem applyYear_comm (y : Option Nat) (a b : Option Nat) :
    applyYear (applyYear y a) b = applyYear (applyYear y b) a := by
  rcases a with _ | va <;> rcases b with _ | vb <;> simp [applyYear]
  by_cases ha : va = 0 <;> by_cases hb : vb = 0 <;>
    rcases y with _ | w <;> simp [applyYear, ha, hb] <;> omega

theorem mergeRecordData_comm (dh : DH) (a b : RecordLine) :
    mergeRecordData (mergeRecordData dh a) b
      = mergeRecordData (mergeRecordData dh b) a := by
  rw [mergeRecordData, mergeRecordData, mergeRecordData, mergeRecordData]
  simp only [DH.mk.injEq]
  refine ⟨trivial, ?_, ?_, ?_⟩
  · exact Finset.union_right_comm _ _ _
  · rw [applyHoldings_comm
        (applyHoldings dh.holdings_count a.totalHoldingCount)
        a.total_holding_count b.totalHoldingCount,
      applyHoldings_comm dh.holdings_count a.totalHoldingCount
        b.totalHoldingCount,
      applyHoldings_comm
        (applyHoldings (applyHoldings dh.holdings_count
          b.totalHoldingCount) a.totalHoldingCount)
        a.total_holding_count b.total_holding_count,
      applyHoldings_comm (applyHoldings dh.holdings_count
          b.totalHoldingCount)
        a.totalHoldingCount b.total_holding_count]
  · exact applyYear_comm dh.year _ _

theorem mergeRecordData_current_id (dh : DH) (l : RecordLine) :
    (mergeRecordData dh l).current_id = dh.current_id := rfl

theorem foldl_processDH_merge (oclc : List Char) :
    ∀ (ls : List RecordLine) (dh : DH),
    dh.current_id = some oclc →
    ls.foldl (fun dh l => (processDH dh (some oclc) l).1) dh
      = ls.foldl mergeRecordData dh := by
  intro ls
  induction ls with
  | nil => intro dh _; rfl
  | cons l rest ih =>
      intro dh hid
      simp only [List.foldl_cons]
      have hstep : (processDH dh (some oclc) l).1 = mergeRecordData dh l := by
        rw [processDH]
        have hcond : ¬(dh.current_id ≠ none ∧
            dh.current_id ≠ some oclc) := by
          rw [hid]
          simp
        rw [if_neg hcond]
        have hnn : ¬(dh.current_id = none) := by rw [hid]; simp
        simp only [hnn, if_false, ite_false]
      rw [hstep]
      exact ih (mergeRecordData dh l)
        (by rw [mergeRecordData_current_id, hid])

/-- C7. Merge order-invariance: feeding any permutation of a batch of
lines that all carry the same OCLC id to a fresh `DataHandler` and then
forcing a flush produces the same bytes — the state is a set union, a
running `max` and a running `min`, all order-insensitive. -/
theorem merge_order_invariance (oclc : List Char)
    (ls ls' : List RecordLine) (hperm : ls.Perm ls') :
    runLines oclc ls = runLines oclc ls' := by
  rcases ls with _ | ⟨a, rest⟩
  · rw [List.Perm.nil_eq hperm]
  rcases ls' with _ | ⟨a', rest'⟩
  · exact absurd (List.Perm.eq_nil hperm) (by simp)
  have hstep0 : ∀ (x : RecordLine),
      (processDH initDH (some oclc) x).1
        = mergeRecordData { initDH with current_id := some oclc } x := by
    intro x
    rw [processDH]
    have hcond : ¬(initDH.current_id ≠ none ∧
        initDH.current_id ≠ some oclc) := by simp [initDH]
    rw [if_neg hcond]
    simp [initDH]
  have key : ∀ (c : RecordLine) (cs : List RecordLine),
      (c :: cs).foldl (fun dh l => (processDH dh (some oclc) l).1) initDH
        = (c :: cs).foldl mergeRecordData
            { initDH with current_id := some oclc } := by
    intro c cs
    simp only [List.foldl_cons, hstep0]
    exact foldl_processDH_merge oclc cs _ rfl
  rw [runLines, runLines]
  simp only [key]
  have hfold := hperm.foldl_eq'
    (fun x _ y _ z => mergeRecordData_comm z x y)
    { initDH with current_id := some oclc }
  rw [hfold]

/-- Witness for C7: two concrete lines in both orders. -/
theorem merge_order_invariance_witness :
    ([(⟨[['0','0','0','0','0','0','0','0','1','6']], none, some 5, none,
        none, none, none⟩ : RecordLine),
      ⟨[], some ['9','7','8','0','0','0','0','0','0','0','0','1','4'],
        none, none, none, some ['2','0','0','0'], none⟩].Perm
      [⟨[], some ['9','7','8','0','0','0','0','0','0','0','0','1','4'],
        none, none, none, some ['2','0','0','0'], none⟩,
       ⟨[['0','0','0','0','0','0','0','0','1','6']], none, some 5, none,
        none, none, none⟩]) ∧
    runLines ['1','2','3']
      [⟨[['0','0','0','0','0','0','0','0','1','6']], none, some 5, none,
        none, none, none⟩,
       ⟨[], some ['9','7','8','0','0','0','0','0','0','0','0','1','4'],
        none, none, none, some ['2','0','0','0'], none⟩]
      = runLines ['1','2','3']
      [⟨[], some ['9','7','8','0','0','0','0','0','0','0','0','1','4'],
        none, none, none, some ['2','0','0','0'], none⟩,
       ⟨[['0','0','0','0','0','0','0','0','1','6']], none, some 5, none,
        none, none, none⟩] :=
  ⟨List.Perm.swap _ _ _,
    merge_order_invariance ['1','2','3'] _ _ (List.Perm.swap _ _ _)⟩

/-! ## Theorems: Result writer (`processor_main.write_results`) -/

/-- C10 counterexample. With worker 0 putting bytes `[1]` and worker 1
putting bytes `[2]`, the arrival order in which worker 1's buffer comes
first is a valid run, and the writer then stores `[2, 1]`, not the
worker-id-order concatenation `[1, 2]`. -/
theorem write_order_counterexample :
    IsInterleaving [(1, [2]), (0, [1])] [[[1]], [[2]]] ∧
    write_results
        ((([(1, [2]), (0, [1])] : List (Nat × List Nat)).map
          fun p => some p.2) ++ [none])
      = [2, 1] ∧
    (([[[1]], [[2]]] : List (List (List Nat))).map List.flatten).flatten
      = [1, 2] ∧
    ([2, 1] : List Nat) ≠ [1, 2] := by
  refine ⟨⟨?_, ?_⟩, by decide, by decide, by decide⟩
  · intro w hw
    have hw2 : w < 2 := by simpa using hw
    interval_cases w <;> rfl
  · intro p hp
    simp only [List.mem_cons, List.not_mem_nil, or_false] at hp
    rcases hp with h | h <;> subst h <;> decide

theorem write_results_flatten (l : List (List Nat)) :
    write_results ((l.map fun b => some b) ++ [none]) = l.flatten := by
  induction l with
  | nil => rfl
  | cons b rest ih =>
      simp only [List.map_cons, List.cons_append, List.flatten_cons]
      rw [write_results, ih]

/-- C10 amended. For every run — every valid interleaving of the
per-worker buffer sequences on the result queue — the output file is the
concatenation of the buffers in arrival order; each single worker's
bytes appear in that worker's emission order, but buffers of different
workers interleave as they arrived, with no reordering by worker id. -/
theorem write_results_arrival_order (arrivals : List (Nat × List Nat))
    (bufs : List (List (List Nat))) (h : IsInterleaving arrivals bufs) :
    write_results ((arrivals.map fun p => some p.2) ++ [none])
      = (arrivals.map Prod.snd).flatten ∧
    ∀ w (hw : w < bufs.length),
      ((arrivals.filter fun p => p.1 = w).map Prod.snd).flatten
        = (bufs.get ⟨w, hw⟩).flatten := by
  constructor
  · rw [← write_results_flatten (arrivals.map Prod.snd), List.map_map]
    rfl
  · intro w hw
    rw [h.1 w hw]

/-- Witness for the amended C10 at the in-order arrival of the
counterexample's buffers. -/
theorem write_results_arrival_order_witness :
    IsInterleaving [(0, [1]), (1, [2])] [[[1]], [[2]]] ∧
    (write_results
        ((([(0, [1]), (1, [2])] : List (Nat × List Nat)).map
          fun p => some p.2) ++ [none])
      = (([(0, [1]), (1, [2])] : List (Nat × List Nat)).map
          Prod.snd).flatten ∧
    ∀ w (hw : w < ([[[1]], [[2]]] : List (List (List Nat))).length),
      ((([(0, [1]), (1, [2])] : List (Nat × List Nat)).filter
          fun p => p.1 = w).map Prod.snd).flatten
        = (([[[1]], [[2]]] : List (List (List Nat))).get ⟨w, hw⟩).flatten) := by
  have hint : IsInterleaving [(0, [1]), (1, [2])] [[[1]], [[2]]] := by
    constructor
    · intro w hw
      have hw2 : w < 2 := by simpa using hw
      interval_cases w <;> rfl
    · intro p hp
      simp only [List.mem_cons, List.not_mem_nil, or_false] at hp
      rcases hp with h | h <;> subst h <;> decide
  exact ⟨hint, write_results_arrival_order _ _ hint⟩
